import Mathlib

/-!
# Verification of the pgn-viewer core (tokenizer, tree builder, path resolver,
timeline controller, engine session)

Shallow embedding of the algorithmic core of `src/src/App.tsx` and
`src/src/useStockfish.ts`.  The chess move-legality oracle (the `chess.js`
library) is an external collaborator of the repository; it is modelled as an
abstract `Oracle` record of pure functions (§6 of the spec documents its
interface), and concrete table instances listing genuine oracle outputs are
used to evaluate the embedding on concrete inputs.
-/

namespace PgnViewer

/-! ## Tokenizer — `tokenizeMovetext`, `stripSemicolonComments` (App.tsx) -/

/-- JS `\s` restricted to the ASCII whitespace characters that can occur in
movetext (space, tab, newline, carriage return, vertical tab, form feed). -/
def isSpaceJS (c : Char) : Bool :=
  c = ' ' || c = '\t' || c = '\n' || c = '\r' || c = Char.ofNat 11 || c = Char.ofNat 12

/-- `input.replace(/;[^\n]*/g, "")` — drop semicolon comments up to (not
including) the next newline.  The Bool flag records "currently inside a
semicolon comment". -/
def stripGo : Bool → List Char → List Char
  | _, [] => []
  | false, c :: rest => if c = ';' then stripGo true rest else c :: stripGo false rest
  | true, c :: rest => if c = '\n' then c :: stripGo false rest else stripGo true rest

def stripSemicolonComments (input : String) : String :=
  String.mk (stripGo false input.toList)

/-- The three characters that the source file's (mojibake-encoded) Unicode
ellipsis alternative in `/\d+\.(?:\.\.|…)?/` literally consists of. -/
def ellipsisChars : List Char := ['â', '€', '¦']

def isParen (c : Char) : Bool := c = '(' || c = ')'

/-- List-level `trim` (kernel-reducible replacement for `String.trim`). -/
def trimChars (cs : List Char) : List Char :=
  ((cs.dropWhile Char.isWhitespace).reverse.dropWhile Char.isWhitespace).reverse

/-- List-level split on a single separator character, with JS
`String.prototype.split` semantics (empty fields kept). -/
def splitChGo (sep : Char) (acc : List Char) : List Char → List (List Char)
  | [] => [acc.reverse]
  | c :: r =>
    if c = sep then acc.reverse :: splitChGo sep [] r else splitChGo sep (c :: acc) r

/-- `fen.split(" ")[i]` with `""` for a missing index. -/
def fenField (fen : String) (i : Nat) : String :=
  String.mk ((splitChGo ' ' [] fen.toList).getD i [])

/-- Substring occurrence test (JS `String.prototype.includes` /
`RegExp.test` on a literal). -/
def hasSub (pat : List Char) : List Char → Bool
  | [] => pat.isEmpty
  | c :: rest => pat.isPrefixOf (c :: rest) || hasSub pat rest

/-- One alternative of the tokenizer regex, tried at the current position.
Returns the matched characters and the rest.  Alternatives are tried in the
source regex's order:
`\{[^}]*\}|\$\d+|\d+\.(?:\.\.|…)?|1-0|0-1|1\/2-1\/2|\*|[()]+|[^\s()]+`. -/
def matchTok (cs : List Char) : Option (List Char × List Char) :=
  -- `\{[^}]*\}`
  (match cs with
   | '{' :: rest =>
     let pre := rest.takeWhile (fun c => c ≠ '}')
     let post := rest.dropWhile (fun c => c ≠ '}')
     match post with
     | '}' :: rest' => some ('{' :: pre ++ ['}'], rest')
     | _ => none
   | _ => none) <|>
  -- `\$\d+`
  (match cs with
   | '$' :: rest =>
     let ds := rest.takeWhile Char.isDigit
     if ds.isEmpty then none
     else some ('$' :: ds, rest.dropWhile Char.isDigit)
   | _ => none) <|>
  -- `\d+\.(?:\.\.|…)?`
  (let ds := cs.takeWhile Char.isDigit
   if ds.isEmpty then none
   else
     match cs.dropWhile Char.isDigit with
     | '.' :: rest =>
       match rest with
       | '.' :: '.' :: rest' => some (ds ++ ['.', '.', '.'], rest')
       | _ =>
         if rest.take 3 = ellipsisChars then
           some (ds ++ '.' :: ellipsisChars, rest.drop 3)
         else some (ds ++ ['.'], rest)
     | _ => none) <|>
  -- `1-0`
  (if cs.take 3 = ['1', '-', '0'] then some (['1', '-', '0'], cs.drop 3) else none) <|>
  -- `0-1`
  (if cs.take 3 = ['0', '-', '1'] then some (['0', '-', '1'], cs.drop 3) else none) <|>
  -- `1/2-1/2`
  (if cs.take 7 = ['1', '/', '2', '-', '1', '/', '2'] then
     some (['1', '/', '2', '-', '1', '/', '2'], cs.drop 7)
   else none) <|>
  -- `\*`
  (match cs with
   | '*' :: rest => some (['*'], rest)
   | _ => none) <|>
  -- `[()]+`  (a greedy RUN of parentheses is one match)
  (match cs with
   | c :: _ =>
     if isParen c then some (cs.takeWhile isParen, cs.dropWhile isParen) else none
   | _ => none) <|>
  -- `[^\s()]+`
  (match cs with
   | c :: _ =>
     if ¬ isSpaceJS c ∧ ¬ isParen c then
       some (cs.takeWhile (fun x => ¬ isSpaceJS x ∧ ¬ isParen x),
             cs.dropWhile (fun x => ¬ isSpaceJS x ∧ ¬ isParen x))
     else none
   | _ => none)

/-- The lexical scan: repeatedly take the next regex match (or skip one
unmatched whitespace character).  Every match consumes at least one character,
so `cs.length` steps of fuel always suffice. -/
def lexGo : Nat → List Char → List (List Char)
  | 0, _ => []
  | _, [] => []
  | f + 1, c :: rest =>
    match matchTok (c :: rest) with
    | some (tok, rest') => tok :: lexGo f rest'
    | none => lexGo f rest

/-- Token kinds, as in the source's `TT` table. -/
inductive Tok where
  | COMMENT (v : String)
  | NAG (v : String)
  | MOVE_NUM (v : String)
  | RAV_START
  | RAV_END
  | RESULT (v : String)
  | SAN (v : String)
  deriving DecidableEq, Repr

/-- `^\d+\.(?:\.\.|…)?$` (full-string test used for classification). -/
def isMoveNumTok (tok : List Char) : Bool :=
  let ds := tok.takeWhile Char.isDigit
  if ds.isEmpty then false
  else
    match tok.dropWhile Char.isDigit with
    | '.' :: rest => rest = [] || rest = ['.', '.'] || rest = ellipsisChars
    | _ => false

/-- Classification of one matched token string, exactly as in
`tokenizeMovetext` (classification is by first character / literal equality,
independent of which regex alternative produced the match). -/
def classify (tok : List Char) : Tok :=
  match tok with
  | '{' :: rest => .COMMENT (String.mk (trimChars rest.dropLast))
  | '$' :: _ => .NAG (String.mk tok)
  | _ =>
    if isMoveNumTok tok then .MOVE_NUM (String.mk tok)
    else if tok = ['('] then .RAV_START
    else if tok = [')'] then .RAV_END
    else if tok = ['1', '-', '0'] || tok = ['0', '-', '1'] ||
            tok = ['1', '/', '2', '-', '1', '/', '2'] || tok = ['*'] then
      .RESULT (String.mk tok)
    else .SAN (String.mk tok)

def tokenizeMovetext (raw : String) : List Tok :=
  let s := (stripSemicolonComments raw).toList
  (lexGo s.length s).map classify

/-! ## `sanitizeSANForMove` (App.tsx) -/

/-- `.replace(/\+!|\+\?|#!|#\?/g, (m) => m[0])` — left-to-right,
non-overlapping. -/
def replKeepCheck : List Char → List Char
  | a :: b :: r =>
    if (a = '+' || a = '#') && (b = '!' || b = '?') then a :: replKeepCheck r
    else a :: replKeepCheck (b :: r)
  | l => l

def sanitizeSANForMove (san : String) : String :=
  let s1 := san.toList.map (fun c => if c = Char.ofNat 0x2212 then '-' else c)
  let s2 := replKeepCheck s1
  String.mk (s2.filter (fun c => ¬ (c = '!' || c = '?')))

/-! ## The move-legality oracle (external `chess.js`, §6 of the spec)

Modelled from the spec: the repository delegates chess rules to an external
black-box oracle.  A `Chess` instance is its current position string (a FEN);
`norm f` models `new Chess(f)` followed by `.fen()` (`none` = the constructor
throws), `move f san` models `chess.move(san, {sloppy:true})` (`none` = throws
or returns null), `turn` models `chess.turn()`, and `moveUci f from to promo`
models `chess.move({from,to,promotion})` returning the move's SAN and the
resulting FEN. -/
structure Oracle where
  init : String
  norm : String → Option String
  move : String → String → Option String
  turn : String → Char
  moveUci : String → String → String → Option Char → Option (String × String)

/-- `mkChess(fen)` = `try { new Chess(fen) } catch { new Chess() }`, read back
as its FEN. -/
def mkFenStr (O : Oracle) (fen : String) : String := (O.norm fen).getD O.init

/-! ## Game tree structures and the tree builder (App.tsx `parseMovetextToTree`)

`PlyNode.parent` is a non-owning back-reference in the source; in this value
embedding it holds the previous node's value as of the moment the node was
constructed.  The cyclic `lineRef` back-reference cannot be represented in an
inductive value; functions that read it (`goToNode`) take the owning `Line`
explicitly instead (`indexInLine` is represented, set by the fix-up pass). -/
mutual
inductive PlyNode : Type where
  | mk (id : Nat) (san sanClean fenBefore fenAfter : String) (moveNumber : Nat)
      (isWhite : Bool) (commentBefore commentAfter nags : List String)
      (parent : Option PlyNode) (variations : List Line) (indexInLine : Option Nat) :
      PlyNode
inductive Line : Type where
  | mk (lid : Nat) (startFen : String) (nodes : List PlyNode)
      (preVariations : List Line) : Line
end

def PlyNode.id : PlyNode → Nat | .mk i _ _ _ _ _ _ _ _ _ _ _ _ => i
def PlyNode.san : PlyNode → String | .mk _ s _ _ _ _ _ _ _ _ _ _ _ => s
def PlyNode.sanClean : PlyNode → String | .mk _ _ sc _ _ _ _ _ _ _ _ _ _ => sc
def PlyNode.fenBefore : PlyNode → String | .mk _ _ _ fb _ _ _ _ _ _ _ _ _ => fb
def PlyNode.fenAfter : PlyNode → String | .mk _ _ _ _ fa _ _ _ _ _ _ _ _ => fa
def PlyNode.moveNumber : PlyNode → Nat | .mk _ _ _ _ _ mn _ _ _ _ _ _ _ => mn
def PlyNode.isWhite : PlyNode → Bool | .mk _ _ _ _ _ _ iw _ _ _ _ _ _ => iw
def PlyNode.commentBefore : PlyNode → List String | .mk _ _ _ _ _ _ _ cb _ _ _ _ _ => cb
def PlyNode.commentAfter : PlyNode → List String | .mk _ _ _ _ _ _ _ _ ca _ _ _ _ => ca
def PlyNode.nags : PlyNode → List String | .mk _ _ _ _ _ _ _ _ _ ng _ _ _ => ng
def PlyNode.parent : PlyNode → Option PlyNode | .mk _ _ _ _ _ _ _ _ _ _ p _ _ => p
def PlyNode.variations : PlyNode → List Line | .mk _ _ _ _ _ _ _ _ _ _ _ vs _ => vs
def PlyNode.indexInLine : PlyNode → Option Nat | .mk _ _ _ _ _ _ _ _ _ _ _ _ il => il

def Line.lid : Line → Nat | .mk l _ _ _ => l
def Line.startFen : Line → String | .mk _ s _ _ => s
def Line.nodes : Line → List PlyNode | .mk _ _ ns _ => ns
def Line.preVariations : Line → List Line | .mk _ _ _ pv => pv

instance : Inhabited Line := ⟨Line.mk 0 "" [] []⟩
instance : Inhabited PlyNode := ⟨PlyNode.mk 0 "" "" "" "" 0 true [] [] [] none [] none⟩

def addCommentAfter (v : String) : PlyNode → PlyNode
  | .mk i s sc fb fa mn iw cb ca ng p vs il => .mk i s sc fb fa mn iw cb (ca ++ [v]) ng p vs il
def addNag (v : String) : PlyNode → PlyNode
  | .mk i s sc fb fa mn iw cb ca ng p vs il => .mk i s sc fb fa mn iw cb ca (ng ++ [v]) p vs il
def addVariation (V : Line) : PlyNode → PlyNode
  | .mk i s sc fb fa mn iw cb ca ng p vs il => .mk i s sc fb fa mn iw cb ca ng p (vs ++ [V]) il
def setIndexInLine (j : Option Nat) : PlyNode → PlyNode
  | .mk i s sc fb fa mn iw cb ca ng p vs _ => .mk i s sc fb fa mn iw cb ca ng p vs j

/-- Apply `f` to the last element of a list (models mutating
`line.nodes[line.nodes.length - 1]`). -/
def mapLast (f : PlyNode → PlyNode) : List PlyNode → List PlyNode
  | [] => []
  | [n] => [f n]
  | n :: rest => n :: mapLast f rest

/-- The back-reference fix-up: `line.nodes.forEach((n,i) => { n.lineRef = line;
n.indexInLine = i; })` (the cyclic `lineRef` is carried externally). -/
def fixupGo (i : Nat) : List PlyNode → List PlyNode
  | [] => []
  | n :: rest => setIndexInLine (some i) n :: fixupGo (i + 1) rest

def fixupNodes (ns : List PlyNode) : List PlyNode := fixupGo 0 ns

/-- `sideFromFen`: `fen.split(" ")[1] === "b" ? "b" : "w"`. -/
def sideFromFen (fen : String) : Char :=
  if fenField fen 1 = "b" then 'b' else 'w'

/-- `parseInt(x, 10) || 1` on a FEN fullmove field (no sign, no leading
whitespace occurs there): leading digits, `NaN` and `0` both giving `1`. -/
def parseIntOr1 (x : String) : Nat :=
  let ds := x.toList.takeWhile Char.isDigit
  if ds.isEmpty then 1
  else
    let v := ds.foldl (fun a c => a * 10 + (c.toNat - '0'.toNat)) 0
    if v = 0 then 1 else v

/-- Lookahead used by anchor disambiguation: skip `COMMENT`/`NAG` tokens and
return the next token, if any. -/
def firstSubstantive : List Tok → Option Tok
  | [] => none
  | .COMMENT _ :: rest => firstSubstantive rest
  | .NAG _ :: rest => firstSubstantive rest
  | t :: _ => some t

/-- Occurrence of a (nonempty) pattern in `s`. -/
def containsSub (s pat : String) : Bool := hasSub pat.toList s.toList

/-- The continuation test `/…|\.\.\.$/.test(v)` (with the source's literal
mojibake ellipsis). -/
def wantsBlackTest (v : String) : Bool :=
  containsSub v (String.mk ellipsisChars) || ['.', '.', '.'].isSuffixOf v.toList

/-- Anchor disambiguation for a variation opened after `nodes` in a line whose
`startFen` is `s`, looking ahead into `rest` (the tokens after the `(`):
default anchor is the last ply's position-after (or the line's start), and a
substantive lookahead MOVE_NUM token whose continuation form disagrees with the
anchor's side to move switches the anchor to the last ply's position-before. -/
def anchorFor (s : String) (nodes : List PlyNode) (rest : List Tok) : String :=
  let anchor0 := match nodes.getLast? with
    | some n => n.fenAfter
    | none => s
  match nodes.getLast?, firstSubstantive rest with
  | some n, some (.MOVE_NUM v) =>
    let desired := if wantsBlackTest v then 'b' else 'w'
    if sideFromFen anchor0 ≠ desired then n.fenBefore else anchor0
  | _, _ => anchor0

structure PState where
  nid : Nat
  lid : Nat
  deriving DecidableEq, Repr

structure LoopRes where
  nodes : List PlyNode
  preVars : List Line
  rest : List Tok
  st : PState

/-- The body of `parseLine`'s `while` loop, with the recursive
`parseLine(idx+1, anchorFen)` call for a variation inlined (wrapper split out
below as `parseLineF`).  Arguments mirror the source's state: remaining
tokens, the line's `startFen`, the live `chess` position `cf`, the collected
`line.nodes` and `line.preVariations`, `pendingBefore`, `lastWasMove`, and the
global id counters.  `fuel` only bounds recursion depth; `parseMovetextToTree`
supplies more than enough. -/
def parseLoop (O : Oracle) : Nat → List Tok → String → String → List PlyNode →
    List Line → List String → Bool → PState → LoopRes
  | 0, toks, _, _, nodes, preVars, _, _, st => ⟨nodes, preVars, toks, st⟩
  | _ + 1, [], _, _, nodes, preVars, _, _, st => ⟨nodes, preVars, [], st⟩
  | f + 1, tok :: rest, s, cf, nodes, preVars, pending, lwm, st =>
    match tok with
    | .RAV_END => ⟨nodes, preVars, rest, st⟩
    | .RESULT v => ⟨nodes, preVars, .RESULT v :: rest, st⟩
    | .RAV_START =>
      let anchor := anchorFor s nodes rest
      let r := parseLoop O f rest anchor (mkFenStr O anchor) [] [] [] false
        ⟨st.nid, st.lid + 1⟩
      let varLine := Line.mk st.lid anchor (fixupNodes r.nodes) r.preVars
      if nodes.isEmpty then
        parseLoop O f r.rest s cf nodes (preVars ++ [varLine]) pending false r.st
      else
        parseLoop O f r.rest s cf (mapLast (addVariation varLine) nodes) preVars
          pending false r.st
    | .COMMENT v =>
      if lwm ∧ ¬ nodes.isEmpty then
        parseLoop O f rest s cf (mapLast (addCommentAfter v) nodes) preVars pending lwm st
      else
        parseLoop O f rest s cf nodes preVars (pending ++ [v]) lwm st
    | .NAG v =>
      if ¬ nodes.isEmpty then
        parseLoop O f rest s cf (mapLast (addNag v) nodes) preVars pending lwm st
      else
        parseLoop O f rest s cf nodes preVars pending lwm st
    | .MOVE_NUM _ => parseLoop O f rest s cf nodes preVars pending false st
    | .SAN v =>
      let sanClean := sanitizeSANForMove v
      match O.move cf sanClean with
      | none => parseLoop O f rest s cf nodes preVars pending lwm st
      | some fenAfter =>
        let node : PlyNode := .mk st.nid v sanClean cf fenAfter
          (parseIntOr1 (fenField cf 5)) (decide (O.turn cf = 'w'))
          pending [] [] nodes.getLast? [] none
        parseLoop O f rest s fenAfter (nodes ++ [node]) preVars [] true
          ⟨st.nid + 1, st.lid⟩

/-- `parseLine(idx, startFenLocal)`: allocate the line id, build a fresh
`chess` instance from the start FEN, run the loop, then fix up back-references.
Returns the line, the remaining tokens and the updated id counters. -/
def parseLineF (O : Oracle) (fuel : Nat) (toks : List Tok) (startFenLocal : String)
    (st : PState) : Line × List Tok × PState :=
  match fuel with
  | 0 => (Line.mk st.lid startFenLocal [] [], toks, ⟨st.nid, st.lid + 1⟩)
  | f + 1 =>
    let r := parseLoop O f toks startFenLocal (mkFenStr O startFenLocal) [] [] [] false
      ⟨st.nid, st.lid + 1⟩
    (Line.mk st.lid startFenLocal (fixupNodes r.nodes) r.preVars, r.rest, r.st)

/-- `startFenActual` (note JS falsiness: an empty `startFen` string selects the
default initial position). -/
def startFenActual (O : Oracle) (startFen : Option String) : String :=
  match startFen with
  | none => O.init
  | some f => if f = "" then O.init else mkFenStr O f

/-- `parseMovetextToTree(moveText, startFen)` — id counters reset to 1 per
parse. -/
def parseMovetextToTree (O : Oracle) (moveText : String) (startFen : Option String) :
    Line × List PlyNode :=
  let tokens := tokenizeMovetext moveText
  let r := parseLineF O (4 * tokens.length + 4) tokens (startFenActual O startFen) ⟨1, 1⟩
  (r.1, r.1.nodes)

/-! ## A concrete oracle instance

Modelled from the spec: the legality oracle is the external `chess.js`
library, consumed as a black box.  `sfOracle` instantiates the `Oracle`
interface on a finite table of genuine oracle outputs (standard initial
position; the moves `e4`, then `e5` or `c5`) — every other query fails, which
in particular makes `Qh5` illegal after `1. e4`, as stipulated by the spec's
skip-policy example. -/

def fenInit : String := "rnbqkbnr/pppppppp/8/8/8/8/PPPPPPPP/RNBQKBNR w KQkq - 0 1"
def fenE4 : String := "rnbqkbnr/pppppppp/8/8/4P3/8/PPPPPPPP/RNBQKBNR b KQkq e3 0 1"
def fenE4E5 : String := "rnbqkbnr/pppp1ppp/8/4p3/4P3/8/PPPPPPPP/RNBQKBNR w KQkq e6 0 2"
def fenE4C5 : String := "rnbqkbnr/pp1ppppp/8/2p5/4P3/8/PPPPPPPP/RNBQKBNR w KQkq c6 0 2"

def sfOracle : Oracle where
  init := fenInit
  norm f := if f = fenInit ∨ f = fenE4 ∨ f = fenE4E5 ∨ f = fenE4C5 then some f else none
  move f san :=
    if f = fenInit ∧ san = "e4" then some fenE4
    else if f = fenE4 ∧ san = "e5" then some fenE4E5
    else if f = fenE4 ∧ san = "c5" then some fenE4C5
    else none
  turn f := sideFromFen f
  moveUci _ _ _ _ := none

/-! ## Path resolver — `goToNode` (App.tsx)

Walk `parent` back-references with a visited-id guard, reverse, replay from the
owning line's start FEN, then continue through the remaining plies of the same
line.  `lineRef` is cyclic in the source and is passed explicitly here;
`fallbackFen` is `fenHistory[0]`.  `new Chess(startFen)` throwing is modelled
as `none`; a throwing `chess.move` during the path replay is skipped
(`catch {}`), while one during the continuation stops it (`catch { break }`). -/

def collectPath : PlyNode → List Nat → List PlyNode
  | .mk i s sc fb fa mn iw cb ca ng p vs il, seen =>
    if seen.contains i then []
    else
      PlyNode.mk i s sc fb fa mn iw cb ca ng p vs il ::
        (match p with
         | none => []
         | some q => collectPath q (i :: seen))

/-- Replay of the root→node path: a failed application is skipped. -/
def replayPath (O : Oracle) : List PlyNode → List String → String → List String × String
  | [], fens, cur => (fens, cur)
  | p :: rest, fens, cur =>
    match O.move cur p.sanClean with
    | some f => replayPath O rest (fens ++ [f]) f
    | none => replayPath O rest fens cur

/-- Replay of the continuation suffix: a failed application breaks. -/
def replayCont (O : Oracle) : List PlyNode → List String → String → List String
  | [], fens, _ => fens
  | nxt :: rest, fens, cur =>
    match O.move cur nxt.sanClean with
    | some f => replayCont O rest (fens ++ [f]) f
    | none => fens

/-- `node.indexInLine ?? lineRef.nodes.findIndex((n) => n.id === node.id)`
(`-1` when absent). -/
def startIdxOf (node : PlyNode) (L : Line) : Int :=
  match node.indexInLine with
  | some j => (j : Int)
  | none =>
    match L.nodes.findIdx? (fun m => m.id = node.id) with
    | some j => (j : Int)
    | none => -1

def goToNodeFens (O : Oracle) (lineRefOpt : Option Line) (node : PlyNode)
    (fallbackFen : String) : Option (List String) :=
  let path := (collectPath node []).reverse
  let startFen0 := match lineRefOpt with
    | some L => L.startFen
    | none => ""
  let startFen := if startFen0 = "" then fallbackFen else startFen0
  match O.norm startFen with
  | none => none
  | some f0 =>
    let r := replayPath O path [f0] f0
    match lineRefOpt with
    | none => some r.1
    | some L =>
      let startIdx := startIdxOf node L
      if startIdx = -1 then some r.1
      else some (replayCont O (L.nodes.drop (startIdx.toNat + 1)) r.1 r.2)

/-- Number of board positions in the resolved sequence up to and including
`node` (the source sets the cursor to `path.length`, which indexes the
position reached after `node` in the `fens` array). -/
def pathLen (node : PlyNode) : Nat := (collectPath node []).length

/-! ## Timeline controller — `animateToStep` / `cancelAnimation` (App.tsx)

State: the cursor (`step`, mirrored synchronously by `stepRef`), the
`isAnimating` flag and the single pending `setTimeout` continuation
(`animTimerRef`), here represented by the captured `frames` array and the next
index.  `emitted` logs every `setStep` call. -/

structure AnimState where
  step : Nat
  isAnimating : Bool
  timer : Option (List Nat × Nat)
  emitted : List Nat
  deriving DecidableEq, Repr

def cancelAnimation (s : AnimState) : AnimState :=
  { s with timer := none, isAnimating := false }

/-- `frames`: `from+dir, …, clamped` (strictly monotonic toward the target). -/
def framesFor (from_ clamped : Nat) : List Nat :=
  if from_ < clamped then (List.range (clamped - from_)).map (fun i => from_ + 1 + i)
  else (List.range (from_ - clamped)).map (fun i => from_ - 1 - i)

def animateToStep (fenHistoryLen : Nat) (s : AnimState) (targetStep : Int) : AnimState :=
  let s := cancelAnimation s
  let from_ := s.step
  let maxStep : Int := max 0 ((fenHistoryLen : Int) - 1)
  let clamped := (max 0 (min maxStep targetStep)).toNat
  if clamped = from_ then s
  else
    let frames := framesFor from_ clamped
    let s := { s with isAnimating := true }
    -- play(0): frames is nonempty, so emit the first frame and schedule play(1)
    match frames with
    | [] => { s with isAnimating := false }
    | fr0 :: _ =>
      { s with step := fr0, emitted := s.emitted ++ [fr0], timer := some (frames, 1) }

/-- One timer expiry: `play(idx)`. -/
def fireAnim (s : AnimState) : AnimState :=
  match s.timer with
  | none => s
  | some (frames, idx) =>
    let s := { s with timer := none }
    match frames.get? idx with
    | none => { s with isAnimating := false }
    | some v => { s with step := v, emitted := s.emitted ++ [v], timer := some (frames, idx + 1) }

/-- Run pending timers to quiescence (fuel-bounded; each expiry advances the
frame index, so `frames.length + 1` always suffices). -/
def flushAnim : Nat → AnimState → AnimState
  | 0, s => s
  | f + 1, s =>
    match s.timer with
    | none => s
    | some _ => flushAnim f (fireAnim s)

/-! ## Engine session — `useStockfish.ts`

State of the hook: refs (`workerRef` presence, `diedRef`, `lastFenRef`,
`lastGoRef`, `goTimerRef`, `restartingRef` plus the pending restart timeout),
React state (`ready`, `thinking`, `lines`, `engineErr`), the engine options
(`optsRef`), the engine config (`supportsMultiPv` / `maxMultiPv`) and a log of
every `postMessage` sent to the worker. -/

structure EngineLine where
  id : Nat
  depth : Nat
  cp : Option Int
  mate : Option Int
  pvUci : List String
  pvSan : List String
  pvFens : List String
  deriving DecidableEq, Repr

/-- A pending debounced `run` closure: fire time plus the captured
`fen`, `clampedMultiPv`, `depth` and `supportsMultiPv`. -/
structure GoPending where
  fire : Nat
  fen : String
  multipv : Nat
  depth : Nat
  supports : Bool
  deriving DecidableEq, Repr

structure SFState where
  worker : Bool
  died : Bool
  ready : Bool
  thinking : Bool
  lines : List EngineLine
  engineErr : Option String
  lastFen : String
  multipv : Nat
  depth : Nat
  cfgSupports : Bool
  cfgMaxMultiPv : Nat
  lastGo : Nat
  goTimer : Option GoPending
  restarting : Bool
  restartTimer : Bool
  sent : List String
  deriving DecidableEq, Repr

/-- The `run` closure body: `stop`, optional MultiPV option, `position`, `go`
(with `lastGoRef.current = Date.now()`). -/
def runGo (t : Nat) (fen : String) (m d : Nat) (supports : Bool) (s : SFState) : SFState :=
  { s with
    lastGo := t
    sent := s.sent ++ ["stop"] ++
      (if supports then ["setoption name MultiPV value " ++ toString m] else []) ++
      ["position fen " ++ fen, "go depth " ++ toString d] }

/-- `analyze(fen, partial)` called at wall-clock time `t` (times are Nats and
assumed monotone, matching `Date.now()`). -/
def analyze (t : Nat) (fen : String) (pmv pd : Option Nat) (s : SFState) : SFState :=
  if ¬ s.worker then s
  else if s.died then s
  else if ¬ s.ready then s
  else
    let multipv := pmv.getD s.multipv
    let depth := pd.getD s.depth
    let maxMultiPv := max 1 s.cfgMaxMultiPv
    let clampedMultiPv := if s.cfgSupports then min (max 1 multipv) maxMultiPv else 1
    let s := { s with lastFen := fen, lines := [], thinking := true, goTimer := none }
    let delay : Nat := if t - s.lastGo < 120 then 150 else 0
    if delay ≠ 0 then
      { s with goTimer := some ⟨t + delay, fen, clampedMultiPv, depth, s.cfgSupports⟩ }
    else
      runGo t fen clampedMultiPv depth s.cfgSupports s

/-- Expiry of the debounce `setTimeout`. -/
def fireGo (s : SFState) : SFState :=
  match s.goTimer with
  | none => s
  | some g => runGo g.fire g.fen g.multipv g.depth g.supports { s with goTimer := none }

/-- A request arriving at time `t` on the JS event loop: a pending timer whose
fire time has passed runs first, then `analyze`. -/
def reqAt (t : Nat) (fen : String) (s : SFState) : SFState :=
  let s := match s.goTimer with
    | some g => if g.fire ≤ t then fireGo s else s
    | none => s
  analyze t fen none none s

/-- Let any still-pending debounce timer expire. -/
def flushGo (s : SFState) : SFState := fireGo s

/-! ### `defaultOnMessageFactory` — protocol line handling and aggregation -/

/-- JS `\w` (`[A-Za-z0-9_]`). -/
def isWordChar (c : Char) : Bool := c.isAlpha || c.isDigit || c = '_'

/-- Leftmost occurrence of `\b<key>` whose suffix parses with `parse`
(continue scanning on a failed suffix, as the regex engine does).  `bOK` is
the word-boundary status of the current position. -/
def scanKey (key : List Char) (parse : List Char → Option α) :
    Bool → List Char → Option α
  | _, [] => none
  | bOK, c :: rest =>
    match
      (if bOK && key.isPrefixOf (c :: rest) then parse ((c :: rest).drop key.length)
       else none) with
    | some v => some v
    | none => scanKey key parse (¬ isWordChar c) rest

def digitsToNat (ds : List Char) : Nat :=
  ds.foldl (fun a c => a * 10 + (c.toNat - '0'.toNat)) 0

/-- Suffix `(\d+)`. -/
def parseDigits (cs : List Char) : Option Nat :=
  let ds := cs.takeWhile Char.isDigit
  if ds.isEmpty then none else some (digitsToNat ds)

/-- Suffix `(-?\d+)`. -/
def parseSignedDigits (cs : List Char) : Option Int :=
  match cs with
  | '-' :: rest => (parseDigits rest).map (fun n => -(n : Int))
  | _ => (parseDigits cs).map (fun n => (n : Int))

/-- `txt.match(/\b<key>(\d+)/)`, capture as a number. -/
def matchNumAfter (txt key : String) : Option Nat :=
  scanKey key.toList parseDigits true txt.toList

/-- `txt.match(/\b<key>(-?\d+)/)`, capture as a number. -/
def matchIntAfter (txt key : String) : Option Int :=
  scanKey key.toList parseSignedDigits true txt.toList

/-- `txt.match(/\bpv (.+)$/)`: the rest of the line after the first
word-boundary `pv ` from which the end of input is reachable without a
newline. -/
def matchPvTail (txt : String) : Option String :=
  scanKey "pv ".toList
    (fun cs => if cs ≠ [] ∧ ¬ cs.contains '\n' then some (String.mk cs) else none)
    true txt.toList

/-- `.trim().split(/\s+/).filter(Boolean)`. -/
def wordsGo (acc : List Char) : List Char → List String
  | [] => if acc.isEmpty then [] else [String.mk acc.reverse]
  | c :: r =>
    if isSpaceJS c then
      if acc.isEmpty then wordsGo [] r else String.mk acc.reverse :: wordsGo [] r
    else wordsGo (c :: acc) r

def wordsOf (cs : List Char) : List String := wordsGo [] cs

/-- `uciPathToSan(startFen, uciMoves)` — replay a UCI move list from a FEN;
`none` models the `new Chess(startFen)` constructor throwing.  Returns
`(sanMoves, fenFrames, finalFen)`. -/
def uciGo (O : Oracle) : List String → List String → List String → String →
    List String × List String × String
  | [], sans, fens, cur => (sans, fens, cur)
  | uci :: rest, sans, fens, cur =>
    if uci.toList.length < 4 then (sans, fens, cur)
    else
      let fromSq := String.mk (uci.toList.take 2)
      let toSq := String.mk ((uci.toList.drop 2).take 2)
      let promo := (uci.toList.get? 4).map Char.toLower
      match O.moveUci cur fromSq toSq promo with
      | none => (sans, fens, cur)
      | some (san, f) => uciGo O rest (sans ++ [san]) (fens ++ [f]) f

def uciPathToSan (O : Oracle) (startFen : String) (uciMoves : List String) :
    Option (List String × List String × String) :=
  match O.norm startFen with
  | none => none
  | some f0 => some (uciGo O uciMoves [] [f0] f0)

/-- Stable ascending sort by `id` (`filtered.sort((a, b) => a.id - b.id)`). -/
def insertById (l : EngineLine) : List EngineLine → List EngineLine
  | [] => [l]
  | x :: r => if x.id ≤ l.id then x :: insertById l r else l :: x :: r

def sortById : List EngineLine → List EngineLine
  | [] => []
  | x :: r => insertById x (sortById r)

/-- The `EngineLine` an incoming text would store (mirrors the `info ` branch
of the handler up to the `setLines` call; `none` when the handler does not
reach `setLines`). -/
def infoLineOf (O : Oracle) (s : SFState) (txt : String) : Option EngineLine :=
  if containsSub txt "uciok" then none
  else if containsSub txt "readyok" then none
  else if "info ".toList.isPrefixOf txt.toList then
    match matchNumAfter txt "depth ", matchNumAfter txt "multipv ", matchPvTail txt with
    | some depth, some recIdx, some pvText =>
      let pvUci := wordsOf (trimChars pvText.toList)
      let fen := if s.lastFen = "" then O.init else s.lastFen
      match uciPathToSan O fen pvUci with
      | none => none
      | some (pvSan, pvFens, _) =>
        some
          { id := recIdx, depth := depth
            cp :=
              if (matchIntAfter txt "score mate ").isSome then none
              else matchIntAfter txt "score cp "
            mate := matchIntAfter txt "score mate "
            pvUci := pvUci, pvSan := pvSan, pvFens := pvFens }
    | _, _, _ => none
  else none

/-- The worker `onmessage` handler from `defaultOnMessageFactory`.  The
`chess.js` failure inside the `info` branch is caught and surfaced as a
"Parse info error" (its message text is abstracted). -/
def onMessage (O : Oracle) (txt : String) (s : SFState) : SFState :=
  if containsSub txt "uciok" then { s with sent := s.sent ++ ["isready"] }
  else if containsSub txt "readyok" then
    { s with ready := true
             sent := s.sent ++ ["setoption name Threads value 1",
                                "setoption name Hash value 16"] }
  else if "info ".toList.isPrefixOf txt.toList then
    match matchNumAfter txt "depth ", matchNumAfter txt "multipv ", matchPvTail txt with
    | some depth, some recIdx, some pvText =>
      let pvUci := wordsOf (trimChars pvText.toList)
      let fen := if s.lastFen = "" then O.init else s.lastFen
      match uciPathToSan O fen pvUci with
      | none => { s with engineErr := some "Parse info error: Invalid FEN" }
      | some (pvSan, pvFens, _) =>
        let line : EngineLine :=
          { id := recIdx, depth := depth
            cp :=
              if (matchIntAfter txt "score mate ").isSome then none
              else matchIntAfter txt "score cp "
            mate := matchIntAfter txt "score mate "
            pvUci := pvUci, pvSan := pvSan, pvFens := pvFens }
        { s with lines := sortById ((s.lines.filter (fun e => e.id ≠ line.id)) ++ [line]) }
    | _, _, _ => s
  else if "bestmove".toList.isPrefixOf txt.toList then { s with thinking := false }
  else s

/-! ### `spawnWorker` / `w.onerror` — fault recovery -/

/-- The fatal-crash signature `/unreachable|RuntimeError/i`. -/
def fatalSig (msg : String) : Bool :=
  hasSub "unreachable".toList (msg.toList.map Char.toLower) ||
  hasSub "runtimeerror".toList (msg.toList.map Char.toLower)

/-- `spawnWorker` (success path of worker creation): clear the debounce timer,
drop and replace the process handle, reset all session state, and restart the
handshake by posting `uci`. -/
def spawnWorker (s : SFState) : SFState :=
  let maxMultiPv := max 1 s.cfgMaxMultiPv
  let safeMultiPv := if s.cfgSupports then min (max 1 s.multipv) maxMultiPv else 1
  { s with
    multipv := safeMultiPv
    goTimer := none
    worker := true
    died := false
    ready := false
    thinking := false
    lines := []
    engineErr := none
    sent := s.sent ++ ["uci"] }

/-- The `w.onerror` handler: retain the error text; on a fatal signature mark
the worker dead and, unless a restart is already in progress, schedule one. -/
def workerOnError (msg : String) (s : SFState) : SFState :=
  let s := { s with engineErr := some ("Worker error: " ++ msg) }
  if fatalSig msg then
    let s := { s with died := true }
    if ¬ s.restarting then { s with restarting := true, restartTimer := true }
    else s
  else s

/-- Expiry of the scheduled restart `setTimeout`: drop the guard and respawn. -/
def fireRestart (s : SFState) : SFState :=
  if s.restartTimer then
    spawnWorker { s with restarting := false, restartTimer := false }
  else s

/-- The `go` commands in a message log. -/
def goCmds (sent : List String) : List String :=
  sent.filter (fun m => (['g', 'o', ' '].isPrefixOf m.toList))

/-- The `position fen` commands in a message log. -/
def posCmds (sent : List String) : List String :=
  sent.filter (fun m => ("position fen ".toList.isPrefixOf m.toList))

/-! ## Well-formedness invariants of parsed trees -/

/-- A parse-produced oracle position: constructing a `Chess` from it succeeds
and reproduces it verbatim. -/
def Stable (O : Oracle) (f : String) : Prop := O.norm f = some f

/-- Coherence facts about the external oracle, all true of `chess.js`:
re-reading a FEN that the oracle itself produced (by normalisation or by a
move) succeeds and is the identity, and the empty string is not a valid
position. -/
structure OracleOK (O : Oracle) : Prop where
  norm_init : O.norm O.init = some O.init
  norm_norm : ∀ f g, O.norm f = some g → O.norm g = some g
  norm_move : ∀ f m g, O.move f m = some g → O.norm g = some g
  norm_empty : O.norm "" = none

/-- The back-reference chain invariant of a parsed ply: replaying the chain of
`parent` snapshots from the owning line's (normalised) start position `s0`
reproduces the stored positions, with ids strictly decreasing toward the
root. -/
inductive ChainInv (O : Oracle) (s0 : String) : PlyNode → Prop where
  | base : ∀ n : PlyNode, n.parent = none → n.fenBefore = s0 →
      O.move s0 n.sanClean = some n.fenAfter → ChainInv O s0 n
  | step : ∀ n q : PlyNode, n.parent = some q → ChainInv O s0 q →
      n.fenBefore = q.fenAfter → O.move q.fenAfter n.sanClean = some n.fenAfter →
      q.id < n.id → ChainInv O s0 n

/-- Node-list invariant of one line: positions chain (`fenBefore` = previous
`fenAfter`, starting at `s0`), each move replays through the oracle, all
positions are `Good`, ids strictly increase above the bound `b`, and each node
carries `ChainInv`.  `cur` is the position before the first listed node. -/
def NodesOK (O : Oracle) (Good : String → Prop) (s0 : String) :
    String → Nat → List PlyNode → Prop
  | _, _, [] => True
  | cur, b, n :: rest =>
    n.fenBefore = cur ∧ O.move cur n.sanClean = some n.fenAfter ∧
    Good n.fenBefore ∧ Good n.fenAfter ∧ ChainInv O s0 n ∧ b < n.id ∧
    NodesOK O Good s0 n.fenAfter n.id rest

/-- After fix-up, `nodes[i].indexInLine = i`. -/
def NodesIdx : Nat → List PlyNode → Prop
  | _, [] => True
  | i, n :: rest => n.indexInLine = some i ∧ NodesIdx (i + 1) rest

/-- The position of the `chess` instance after the listed nodes. -/
def lastFenOf (s0 : String) (ns : List PlyNode) : String :=
  match ns.getLast? with
  | some n => n.fenAfter
  | none => s0

/-- Well-formedness of a whole parsed line (and, recursively, of every
variation hanging off it). -/
inductive TreeWF (O : Oracle) (Good : String → Prop) : Line → Prop where
  | mk : ∀ (lid : Nat) (s : String) (nodes : List PlyNode) (preVars : List Line),
      Good s →
      NodesOK O Good (mkFenStr O s) (mkFenStr O s) 0 nodes →
      NodesIdx 0 nodes →
      (∀ V ∈ preVars, TreeWF O Good V) →
      (∀ n ∈ nodes, ∀ V ∈ n.variations, TreeWF O Good V) →
      TreeWF O Good (Line.mk lid s nodes preVars)

/-- Reachability of a line inside a parsed tree: the root itself, a
pre-variation, or a variation of some ply, recursively. -/
inductive Reach (root : Line) : Line → Prop where
  | refl : Reach root root
  | pre : ∀ L V, Reach root L → V ∈ L.preVariations → Reach root V
  | var : ∀ L n V, Reach root L → n ∈ L.nodes → V ∈ n.variations → Reach root V


/-! ## Concrete instances used to evaluate the embedding -/

/-- A ready, idle engine session (worker spawned, handshake completed, default
options `multipv 3 / depth 18`, engine config of the default Stockfish 17.1
Lite entry: MultiPV supported, max 6). -/
def sfReady : SFState :=
  ⟨true, false, true, false, [], none, "", 3, 18, true, 6, 0, none, false, false, []⟩

/-- The parsed tree of `1. e4 e5` over the table oracle. -/
def mainE4E5 : Line := (parseMovetextToTree sfOracle "1. e4 e5" none).1

/-- The parsed tree of `1. e4 (1... c5) e5` over the table oracle. -/
def mainRav : Line := (parseMovetextToTree sfOracle "1. e4 (1... c5) e5" none).1

/-- Two real engine `info` lines arriving out of rank order. -/
def txtMpv2 : String := "info depth 12 seldepth 18 multipv 2 score cp -30 nodes 5 pv e7e5 g1f3"

def txtMpv1 : String := "info depth 12 seldepth 16 multipv 1 score cp 35 nodes 5 pv e2e4"

/-- The session after receiving the rank-2 line first. -/
def sAfter2 : SFState := onMessage sfOracle txtMpv2 sfReady

/-! ## Basic lemmas -/

@[simp] lemma PlyNode.id_mk : (PlyNode.mk i s sc fb fa mn iw cb ca ng p vs il).id = i := rfl
@[simp] lemma PlyNode.san_mk : (PlyNode.mk i s sc fb fa mn iw cb ca ng p vs il).san = s := rfl
@[simp] lemma PlyNode.sanClean_mk :
    (PlyNode.mk i s sc fb fa mn iw cb ca ng p vs il).sanClean = sc := rfl
@[simp] lemma PlyNode.fenBefore_mk :
    (PlyNode.mk i s sc fb fa mn iw cb ca ng p vs il).fenBefore = fb := rfl
@[simp] lemma PlyNode.fenAfter_mk :
    (PlyNode.mk i s sc fb fa mn iw cb ca ng p vs il).fenAfter = fa := rfl
@[simp] lemma PlyNode.parent_mk :
    (PlyNode.mk i s sc fb fa mn iw cb ca ng p vs il).parent = p := rfl
@[simp] lemma PlyNode.variations_mk :
    (PlyNode.mk i s sc fb fa mn iw cb ca ng p vs il).variations = vs := rfl
@[simp] lemma PlyNode.indexInLine_mk :
    (PlyNode.mk i s sc fb fa mn iw cb ca ng p vs il).indexInLine = il := rfl
@[simp] lemma Line.lid_mk : (Line.mk l s ns pv).lid = l := rfl
@[simp] lemma Line.startFen_mk : (Line.mk l s ns pv).startFen = s := rfl
@[simp] lemma Line.nodes_mk : (Line.mk l s ns pv).nodes = ns := rfl
@[simp] lemma Line.preVariations_mk : (Line.mk l s ns pv).preVariations = pv := rfl

@[simp] lemma id_setIndexInLine : (setIndexInLine j n).id = n.id := by cases n; rfl
@[simp] lemma sanClean_setIndexInLine : (setIndexInLine j n).sanClean = n.sanClean := by
  cases n; rfl
@[simp] lemma fenBefore_setIndexInLine : (setIndexInLine j n).fenBefore = n.fenBefore := by
  cases n; rfl
@[simp] lemma fenAfter_setIndexInLine : (setIndexInLine j n).fenAfter = n.fenAfter := by
  cases n; rfl
@[simp] lemma parent_setIndexInLine : (setIndexInLine j n).parent = n.parent := by
  cases n; rfl
@[simp] lemma variations_setIndexInLine : (setIndexInLine j n).variations = n.variations := by
  cases n; rfl
@[simp] lemma indexInLine_setIndexInLine : (setIndexInLine j n).indexInLine = j := by
  cases n; rfl

@[simp] lemma id_addCommentAfter : (addCommentAfter v n).id = n.id := by cases n; rfl
@[simp] lemma sanClean_addCommentAfter : (addCommentAfter v n).sanClean = n.sanClean := by
  cases n; rfl
@[simp] lemma fenBefore_addCommentAfter : (addCommentAfter v n).fenBefore = n.fenBefore := by
  cases n; rfl
@[simp] lemma fenAfter_addCommentAfter : (addCommentAfter v n).fenAfter = n.fenAfter := by
  cases n; rfl
@[simp] lemma parent_addCommentAfter : (addCommentAfter v n).parent = n.parent := by
  cases n; rfl
@[simp] lemma variations_addCommentAfter : (addCommentAfter v n).variations = n.variations := by
  cases n; rfl
@[simp] lemma indexInLine_addCommentAfter :
    (addCommentAfter v n).indexInLine = n.indexInLine := by cases n; rfl

@[simp] lemma id_addNag : (addNag v n).id = n.id := by cases n; rfl
@[simp] lemma sanClean_addNag : (addNag v n).sanClean = n.sanClean := by cases n; rfl
@[simp] lemma fenBefore_addNag : (addNag v n).fenBefore = n.fenBefore := by cases n; rfl
@[simp] lemma fenAfter_addNag : (addNag v n).fenAfter = n.fenAfter := by cases n; rfl
@[simp] lemma parent_addNag : (addNag v n).parent = n.parent := by cases n; rfl
@[simp] lemma variations_addNag : (addNag v n).variations = n.variations := by cases n; rfl
@[simp] lemma indexInLine_addNag : (addNag v n).indexInLine = n.indexInLine := by
  cases n; rfl

@[simp] lemma id_addVariation : (addVariation V n).id = n.id := by cases n; rfl
@[simp] lemma sanClean_addVariation : (addVariation V n).sanClean = n.sanClean := by
  cases n; rfl
@[simp] lemma fenBefore_addVariation : (addVariation V n).fenBefore = n.fenBefore := by
  cases n; rfl
@[simp] lemma fenAfter_addVariation : (addVariation V n).fenAfter = n.fenAfter := by
  cases n; rfl
@[simp] lemma parent_addVariation : (addVariation V n).parent = n.parent := by cases n; rfl
@[simp] lemma variations_addVariation :
    (addVariation V n).variations = n.variations ++ [V] := by cases n; rfl
@[simp] lemma indexInLine_addVariation : (addVariation V n).indexInLine = n.indexInLine := by
  cases n; rfl


lemma toList_append (a b : String) : (a ++ b).toList = a.toList ++ b.toList := rfl

lemma goCmds_append (a b : List String) : goCmds (a ++ b) = goCmds a ++ goCmds b := by
  simp [goCmds, List.filter_append]

lemma posCmds_append (a b : List String) : posCmds (a ++ b) = posCmds a ++ posCmds b := by
  simp [posCmds, List.filter_append]

lemma goCmds_runGo (t : Nat) (fen : String) (m d : Nat) (sup : Bool) (s : SFState) :
    goCmds (runGo t fen m d sup s).sent = goCmds s.sent ++ ["go depth " ++ toString d] := by
  have h1 : ("go depth ").toList = ['g', 'o', ' ', 'd', 'e', 'p', 't', 'h', ' '] := rfl
  cases sup
  all_goals
    simp [runGo, goCmds, List.filter_append, List.filter, toList_append, h1,
      List.isPrefixOf]

lemma posCmds_runGo (t : Nat) (fen : String) (m d : Nat) (sup : Bool) (s : SFState) :
    posCmds (runGo t fen m d sup s).sent = posCmds s.sent ++ ["position fen " ++ fen] := by
  have h1 : ("position fen ").toList
      = ['p', 'o', 's', 'i', 't', 'i', 'o', 'n', ' ', 'f', 'e', 'n', ' '] := rfl
  cases sup
  all_goals
    simp [runGo, posCmds, List.filter_append, List.filter, toList_append, h1,
      List.isPrefixOf]

lemma flushGo_runGo (t : Nat) (fen : String) (m d : Nat) (sup : Bool) (s : SFState)
    (h : s.goTimer = none) : flushGo (runGo t fen m d sup s) = runGo t fen m d sup s := by
  simp [flushGo, fireGo, runGo, h]

/-! ## Claim theorems -/

/-- C3.  The claim says every parenthesis character is its own
VariationStart/VariationEnd token even when glued; the tokenizer's regex
alternative `[()]+` in fact lexes a glued run `))` as ONE match, and the
classifier (`tok === ")"`) then files it as a MoveText (SAN) token.  This
contradicts the tokenizer's own stated PGN compliance and breaks the closing
of nested variations, so it is a code bug; this theorem evaluates the code at
the failing input. -/
theorem c3_glued_parens_single_token :
    tokenizeMovetext "))" = [Tok.SAN "))"] ∧
    ¬ tokenizeMovetext "))" = [Tok.RAV_END, Tok.RAV_END] := by
  exact ⟨rfl, by decide⟩

/-- C10.  `analyze` called with no worker, a dead worker, or before the
handshake completed returns with the state unchanged in every component: no
protocol line is sent and the result list, thinking flag and last-analyzed
position are untouched. -/
theorem c10_analyze_before_ready_noop (s : SFState) (t : Nat) (fen : String)
    (pmv pd : Option Nat)
    (h : s.worker = false ∨ s.died = true ∨ s.ready = false) :
    analyze t fen pmv pd s = s := by
  rcases h with h | h | h
  all_goals simp [analyze, h]

theorem c10_analyze_before_ready_noop_witness :
    (({ sfReady with ready := false } : SFState).worker = false ∨
     ({ sfReady with ready := false } : SFState).died = true ∨
     ({ sfReady with ready := false } : SFState).ready = false) ∧
    analyze 7 "X" none none { sfReady with ready := false }
      = { sfReady with ready := false } :=
  ⟨Or.inr (Or.inr rfl),
   c10_analyze_before_ready_noop { sfReady with ready := false } 7 "X" none none
     (Or.inr (Or.inr rfl))⟩

/-- C9.  A transport error matching the fatal signature
(`/unreachable|RuntimeError/i`) marks the worker dead, retains the error text,
and — unless a restart is already in progress (the guard) — schedules a
restart whose firing tears the handle down, clears ready/thinking/results/
error and reposts `uci`; while the guard is set no second restart is
scheduled; a non-fatal transport error only records the retained error
message and changes nothing else. -/
theorem c9_fatal_error_restart (s : SFState) (msg : String) :
    (fatalSig msg = true → s.restarting = false →
      (workerOnError msg s).died = true ∧
      (workerOnError msg s).engineErr = some ("Worker error: " ++ msg) ∧
      (workerOnError msg s).restarting = true ∧
      (workerOnError msg s).restartTimer = true ∧
      (fireRestart (workerOnError msg s)).worker = true ∧
      (fireRestart (workerOnError msg s)).died = false ∧
      (fireRestart (workerOnError msg s)).ready = false ∧
      (fireRestart (workerOnError msg s)).thinking = false ∧
      (fireRestart (workerOnError msg s)).lines = [] ∧
      (fireRestart (workerOnError msg s)).engineErr = none ∧
      (fireRestart (workerOnError msg s)).restarting = false ∧
      (fireRestart (workerOnError msg s)).sent = s.sent ++ ["uci"]) ∧
    (fatalSig msg = true → s.restarting = true →
      (workerOnError msg s).restartTimer = s.restartTimer ∧
      (workerOnError msg s).restarting = true ∧
      (workerOnError msg s).engineErr = some ("Worker error: " ++ msg)) ∧
    (fatalSig msg = false →
      workerOnError msg s = { s with engineErr := some ("Worker error: " ++ msg) }) := by
  refine ⟨?_, ?_, ?_⟩
  all_goals intros
  all_goals simp [workerOnError, fireRestart, spawnWorker, *]

theorem c9_fatal_error_restart_witness :
    fatalSig "RuntimeError: unreachable" = true ∧ sfReady.restarting = false ∧
    ((workerOnError "RuntimeError: unreachable" sfReady).died = true ∧
     (workerOnError "RuntimeError: unreachable" sfReady).engineErr
       = some ("Worker error: " ++ "RuntimeError: unreachable") ∧
     (workerOnError "RuntimeError: unreachable" sfReady).restarting = true ∧
     (workerOnError "RuntimeError: unreachable" sfReady).restartTimer = true ∧
     (fireRestart (workerOnError "RuntimeError: unreachable" sfReady)).worker = true ∧
     (fireRestart (workerOnError "RuntimeError: unreachable" sfReady)).died = false ∧
     (fireRestart (workerOnError "RuntimeError: unreachable" sfReady)).ready = false ∧
     (fireRestart (workerOnError "RuntimeError: unreachable" sfReady)).thinking = false ∧
     (fireRestart (workerOnError "RuntimeError: unreachable" sfReady)).lines = [] ∧
     (fireRestart (workerOnError "RuntimeError: unreachable" sfReady)).engineErr = none ∧
     (fireRestart (workerOnError "RuntimeError: unreachable" sfReady)).restarting = false ∧
     (fireRestart (workerOnError "RuntimeError: unreachable" sfReady)).sent
       = sfReady.sent ++ ["uci"]) :=
  ⟨by decide, rfl,
   (c9_fatal_error_restart sfReady "RuntimeError: unreachable").1 (by decide) rfl⟩

/-- C2 (counterexample).  Two analysis requests for different positions 50 ms
apart on a ready session: because no dispatch preceded the first request, the
first request dispatches immediately and the second dispatches after the
debounce delay — TWO `go` commands are sent, not one. -/
theorem c2_counterexample :
    ¬ ((goCmds (flushGo (reqAt 1050 "B" (reqAt 1000 "A" sfReady))).sent).length = 1) ∧
    (goCmds (flushGo (reqAt 1050 "B" (reqAt 1000 "A" sfReady))).sent).length = 2 := by
  constructor
  all_goals decide

/-- C2 (amended).  When the FIRST request's dispatch is itself deferred by the
debounce (it follows the previous dispatch by less than the 120 ms interval)
and the second request arrives before the deferred dispatch fires, exactly one
search is dispatched, and it is for the second, most recent position. -/
theorem c2_debounce_single_dispatch (s : SFState) (t1 t2 : Nat) (f1 f2 : String)
    (_hne : f1 ≠ f2)
    (hw : s.worker = true) (hd : s.died = false) (hr : s.ready = true)
    (hg : s.goTimer = none)
    (hdeb : t1 - s.lastGo < 120) (h12 : t1 ≤ t2) (hwin : t2 < t1 + 150) :
    goCmds (flushGo (reqAt t2 f2 (reqAt t1 f1 s))).sent
      = goCmds s.sent ++ ["go depth " ++ toString s.depth] ∧
    posCmds (flushGo (reqAt t2 f2 (reqAt t1 f1 s))).sent
      = posCmds s.sent ++ ["position fen " ++ f2] := by
  have e1 : reqAt t1 f1 s
      = { s with lastFen := f1, lines := [], thinking := true,
                 goTimer := some ⟨t1 + 150, f1,
                   (if s.cfgSupports then min (max 1 s.multipv) (max 1 s.cfgMaxMultiPv)
                    else 1),
                   s.depth, s.cfgSupports⟩ } := by
    simp [reqAt, analyze, hw, hd, hr, hg, hdeb]
  have hnotfire : ¬ (t1 + 150 ≤ t2) := by omega
  by_cases hdeb2 : t2 - s.lastGo < 120
  · have e2 : reqAt t2 f2 (reqAt t1 f1 s)
        = { s with lastFen := f2, lines := [], thinking := true,
                   goTimer := some ⟨t2 + 150, f2,
                     (if s.cfgSupports then min (max 1 s.multipv) (max 1 s.cfgMaxMultiPv)
                      else 1),
                     s.depth, s.cfgSupports⟩ } := by
      rw [e1]; simp [reqAt, analyze, hw, hd, hr, hnotfire, hdeb2]
    rw [e2]
    simp [flushGo, fireGo, goCmds_runGo, posCmds_runGo]
  · have e2 : reqAt t2 f2 (reqAt t1 f1 s)
        = runGo t2 f2
            (if s.cfgSupports then min (max 1 s.multipv) (max 1 s.cfgMaxMultiPv) else 1)
            s.depth s.cfgSupports
            { s with lastFen := f2, lines := [], thinking := true, goTimer := none } := by
      rw [e1]; simp [reqAt, analyze, hw, hd, hr, hnotfire, hdeb2]
    rw [e2, flushGo_runGo _ _ _ _ _ _ rfl]
    exact ⟨goCmds_runGo _ _ _ _ _ _, posCmds_runGo _ _ _ _ _ _⟩

theorem c2_debounce_single_dispatch_witness :
    ("A" : String) ≠ "B" ∧
    ({ sfReady with lastGo := 940 } : SFState).worker = true ∧
    (1000 : Nat) - ({ sfReady with lastGo := 940 } : SFState).lastGo < 120 ∧
    goCmds (flushGo (reqAt 1050 "B" (reqAt 1000 "A" { sfReady with lastGo := 940 }))).sent
      = goCmds ({ sfReady with lastGo := 940 } : SFState).sent
        ++ ["go depth " ++ toString ({ sfReady with lastGo := 940 } : SFState).depth] :=
  ⟨by decide, rfl, by decide,
   (c2_debounce_single_dispatch { sfReady with lastGo := 940 } 1000 1050 "A" "B"
     (by decide) rfl rfl rfl rfl (by decide) (by omega) (by omega)).1⟩

/-- C8.  Cancellation leaves the cursor untouched, and in the concrete
scenario (11-step history, an animated step toward index 10 in flight, then a
request for index 2) the new request discards the pending frames toward 10:
the only cursor values ever emitted are `1` (already set before cancellation)
and `2`, the cursor ends at `2`, and the timer chain dies out. -/
theorem c8_animation_cancelled_by_new_request :
    (∀ s : AnimState, (cancelAnimation s).step = s.step) ∧
    ((animateToStep 11 ⟨0, false, none, []⟩ 10).step = 1 ∧
     (animateToStep 11 ⟨0, false, none, []⟩ 10).timer = some (framesFor 0 10, 1) ∧
     (animateToStep 11 (animateToStep 11 ⟨0, false, none, []⟩ 10) 2).step = 2 ∧
     (animateToStep 11 (animateToStep 11 ⟨0, false, none, []⟩ 10) 2).timer
       = some ([2], 1) ∧
     (flushAnim 20 (animateToStep 11 (animateToStep 11 ⟨0, false, none, []⟩ 10) 2)).step
       = 2 ∧
     (flushAnim 20 (animateToStep 11 (animateToStep 11 ⟨0, false, none, []⟩ 10) 2)).emitted
       = [1, 2] ∧
     (flushAnim 20 (animateToStep 11 (animateToStep 11 ⟨0, false, none, []⟩ 10) 2)).timer
       = none) := by
  constructor
  · intro s; simp [cancelAnimation]
  · decide

/-- C1 (counterexample).  For `1. e4 (1... c5) e5` the variation line built
for `(1... c5)` — it does hold the single ply `c5` — has starting position
different from the initial position: the claim that it equals the position
before `1. e4` is false on the code. -/
theorem c1_counterexample :
    ((mainRav.nodes.getD 0 default).variations.getD 0 default).nodes.map PlyNode.san
      = ["c5"] ∧
    ¬ ((mainRav.nodes.getD 0 default).variations.getD 0 default).startFen = fenInit := by
  constructor
  all_goals decide

/-- C1 (amended).  For `1. e4 (1... c5) e5` the variation's starting position
equals the position AFTER `1. e4`: the lookahead sees the continuation-form
move number `1...`, whose implied side to move (black) AGREES with the side to
move of the default anchor (the position after `1. e4`), so no anchor switch
occurs. -/
theorem c1_variation_anchor :
    ((mainRav.nodes.getD 0 default).variations.getD 0 default).startFen
      = (mainRav.nodes.getD 0 default).fenAfter ∧
    ((mainRav.nodes.getD 0 default).variations.getD 0 default).startFen = fenE4 ∧
    sideFromFen fenE4 = 'b' ∧ wantsBlackTest "1..." = true := by
  refine ⟨?_, ?_, ?_, ?_⟩
  all_goals decide

/-- C6.  A MoveText token whose oracle application fails contributes no Ply
and leaves the whole parser state (current position, pending leading comments,
last-was-move flag, collected nodes, id counters) unchanged — the loop just
moves to the next token; and concretely `1. e4 Qh5 e5` (with `Qh5` illegal
after `1. e4`) parses to a line with exactly the two plies `e4`, `e5`. -/
theorem c6_illegal_token_skipped :
    (∀ (O : Oracle) (f : Nat) (v : String) (rest : List Tok) (s cf : String)
      (nodes : List PlyNode) (preVars : List Line) (pending : List String) (lwm : Bool)
      (st : PState), O.move cf (sanitizeSANForMove v) = none →
      parseLoop O (f + 1) (Tok.SAN v :: rest) s cf nodes preVars pending lwm st =
      parseLoop O f rest s cf nodes preVars pending lwm st) ∧
    (parseMovetextToTree sfOracle "1. e4 Qh5 e5" none).1.nodes.map PlyNode.san
      = ["e4", "e5"] := by
  constructor
  · intro O f v rest s cf nodes preVars pending lwm st h
    simp [parseLoop, h]
  · rfl

theorem c6_illegal_token_skipped_witness :
    sfOracle.move fenE4 (sanitizeSANForMove "Qh5") = none ∧
    parseLoop sfOracle 1 [Tok.SAN "Qh5"] fenInit fenE4 [] [] [] false ⟨3, 2⟩ =
    parseLoop sfOracle 0 [] fenInit fenE4 [] [] [] false ⟨3, 2⟩ :=
  ⟨by decide,
   c6_illegal_token_skipped.1 sfOracle 0 "Qh5" [] fenInit fenE4 [] [] [] false ⟨3, 2⟩
     (by decide)⟩


lemma mem_insertById (a l : EngineLine) (xs : List EngineLine) :
    a ∈ insertById l xs ↔ a = l ∨ a ∈ xs := by
  induction xs with
  | nil => simp [insertById]
  | cons x r ih =>
    by_cases h : x.id ≤ l.id
    · simp only [insertById, h, if_pos, List.mem_cons, ih]
      tauto
    · simp only [insertById, h, if_neg, not_false_iff, List.mem_cons]

lemma mem_sortById (a : EngineLine) (xs : List EngineLine) :
    a ∈ sortById xs ↔ a ∈ xs := by
  induction xs with
  | nil => simp [sortById]
  | cons x r ih => simp [sortById, mem_insertById, ih]

lemma insertById_pairwise_lt (l : EngineLine) (xs : List EngineLine)
    (hs : xs.Pairwise (fun a b => a.id < b.id)) (hne : ∀ y ∈ xs, l.id ≠ y.id) :
    (insertById l xs).Pairwise (fun a b => a.id < b.id) := by
  induction xs with
  | nil => simp [insertById]
  | cons x r ih =>
    rcases List.pairwise_cons.mp hs with ⟨hx, hr⟩
    by_cases h : x.id ≤ l.id
    · have hxl : x.id < l.id := lt_of_le_of_ne h (fun e => hne x (by simp) e.symm)
      simp only [insertById, h, if_pos]
      refine List.pairwise_cons.mpr ⟨?_, ih hr (fun y hy => hne y (by simp [hy]))⟩
      intro b hb
      rcases (mem_insertById b l r).mp hb with rfl | hbr
      · exact hxl
      · exact hx b hbr
    · have hlx : l.id < x.id := by omega
      simp only [insertById, h, if_neg, not_false_iff]
      refine List.pairwise_cons.mpr ⟨?_, hs⟩
      intro b hb
      simp only [List.mem_cons] at hb
      rcases hb with rfl | hbr
      · exact hlx
      · exact lt_trans hlx (hx b hbr)

lemma sortById_pairwise_lt (xs : List EngineLine)
    (h : xs.Pairwise (fun a b => a.id ≠ b.id)) :
    (sortById xs).Pairwise (fun a b => a.id < b.id) := by
  induction xs with
  | nil => simp [sortById]
  | cons x r ih =>
    rcases List.pairwise_cons.mp h with ⟨hx, hr⟩
    exact insertById_pairwise_lt x (sortById r) (ih hr)
      (fun y hy => hx y ((mem_sortById y r).mp hy))

lemma replace_sorted (lines : List EngineLine) (l : EngineLine)
    (hok : lines.Pairwise (fun a b => a.id < b.id)) :
    (sortById ((lines.filter (fun e => e.id ≠ l.id)) ++ [l])).Pairwise
      (fun a b => a.id < b.id) ∧
    (∀ e, e ∈ sortById ((lines.filter (fun e => e.id ≠ l.id)) ++ [l]) ↔
      e = l ∨ (e ∈ lines ∧ e.id ≠ l.id)) := by
  constructor
  · apply sortById_pairwise_lt
    rw [List.pairwise_append]
    refine ⟨(List.Pairwise.filter _ hok).imp (fun h => Nat.ne_of_lt h), by simp, ?_⟩
    intro a ha b hb
    rcases List.mem_singleton.mp hb with rfl
    have := List.of_mem_filter ha
    simpa using this
  · intro e
    rw [mem_sortById, List.mem_append, List.mem_filter, List.mem_singleton]
    simp
    tauto

/-- C4.  Within one analysis, the stored result list is keyed by `multipv`
rank: a message that parses as an `info` line with rank `l.id` yields exactly
the old entries of other ranks plus `l` (full replacement, no duplicate), kept
strictly sorted by ascending rank; any other message leaves the result list
unchanged. -/
theorem c4_info_lines_keyed_sorted (O : Oracle) (s : SFState) (txt : String)
    (hok : s.lines.Pairwise (fun a b => a.id < b.id)) :
    (match infoLineOf O s txt with
     | some l =>
       (onMessage O txt s).lines
         = sortById ((s.lines.filter (fun e => e.id ≠ l.id)) ++ [l]) ∧
       (onMessage O txt s).lines.Pairwise (fun a b => a.id < b.id) ∧
       (∀ e, e ∈ (onMessage O txt s).lines ↔ e = l ∨ (e ∈ s.lines ∧ e.id ≠ l.id))
     | none => (onMessage O txt s).lines = s.lines) := by
  by_cases h1 : containsSub txt "uciok" = true
  · simp [onMessage, infoLineOf, h1]
  · by_cases h2 : containsSub txt "readyok" = true
    · simp [onMessage, infoLineOf, h1, h2]
    · by_cases h3 : "info ".toList <+: txt.toList
      · have h3' : ['i', 'n', 'f', 'o', ' '] <+: txt.data := h3
        rcases hd : matchNumAfter txt "depth " with _ | depth
        · simp [onMessage, infoLineOf, h1, h2, h3, h3', hd, List.isPrefixOf_iff_prefix]
        · rcases hm : matchNumAfter txt "multipv " with _ | recIdx
          · simp [onMessage, infoLineOf, h1, h2, h3, h3', hd, hm, List.isPrefixOf_iff_prefix]
          · rcases hp : matchPvTail txt with _ | pvText
            · simp [onMessage, infoLineOf, h1, h2, h3, h3', hd, hm, hp,
                List.isPrefixOf_iff_prefix]
            · rcases hu : uciPathToSan O (if s.lastFen = "" then O.init else s.lastFen)
                  (wordsOf (trimChars pvText.data)) with _ | ⟨pvSan, pvFens, fin⟩
              · simp [onMessage, infoLineOf, h1, h2, h3, h3', hd, hm, hp, hu,
                  List.isPrefixOf_iff_prefix]
              · have e1 : infoLineOf O s txt = some
                    { id := recIdx, depth := depth
                      cp := if (matchIntAfter txt "score mate ").isSome then none
                            else matchIntAfter txt "score cp "
                      mate := matchIntAfter txt "score mate "
                      pvUci := wordsOf (trimChars pvText.data)
                      pvSan := pvSan, pvFens := pvFens } := by
                  simp [infoLineOf, h1, h2, h3, h3', hd, hm, hp, hu, List.isPrefixOf_iff_prefix]
                have e2 : (onMessage O txt s).lines = sortById
                    ((s.lines.filter (fun e => e.id ≠ recIdx)) ++
                      [{ id := recIdx, depth := depth
                         cp := if (matchIntAfter txt "score mate ").isSome then none
                               else matchIntAfter txt "score cp "
                         mate := matchIntAfter txt "score mate "
                         pvUci := wordsOf (trimChars pvText.data)
                         pvSan := pvSan, pvFens := pvFens }]) := by
                  simp [onMessage, h1, h2, h3, h3', hd, hm, hp, hu, List.isPrefixOf_iff_prefix]
                rw [e1]
                refine ⟨e2, ?_, ?_⟩
                · rw [e2]
                  exact (replace_sorted s.lines
                    { id := recIdx, depth := depth,
                      cp := if (matchIntAfter txt "score mate ").isSome then none
                            else matchIntAfter txt "score cp ",
                      mate := matchIntAfter txt "score mate ",
                      pvUci := wordsOf (trimChars pvText.data),
                      pvSan := pvSan, pvFens := pvFens } hok).1
                · intro e
                  rw [e2]
                  exact (replace_sorted s.lines
                    { id := recIdx, depth := depth,
                      cp := if (matchIntAfter txt "score mate ").isSome then none
                            else matchIntAfter txt "score cp ",
                      mate := matchIntAfter txt "score mate ",
                      pvUci := wordsOf (trimChars pvText.data),
                      pvSan := pvSan, pvFens := pvFens } hok).2 e
      · have h3' : ¬ (['i', 'n', 'f', 'o', ' '] <+: txt.data) := h3
        by_cases h4 : "bestmove".toList <+: txt.toList
        · have h4' : ['b', 'e', 's', 't', 'm', 'o', 'v', 'e'] <+: txt.data := h4
          simp [onMessage, infoLineOf, h1, h2, h3', h4', List.isPrefixOf_iff_prefix]
        · have h4' : ¬ (['b', 'e', 's', 't', 'm', 'o', 'v', 'e'] <+: txt.data) := h4
          simp [onMessage, infoLineOf, h1, h2, h3', h4', List.isPrefixOf_iff_prefix]

theorem c4_info_lines_keyed_sorted_witness :
    sAfter2.lines.Pairwise (fun a b => a.id < b.id) ∧
    (match infoLineOf sfOracle sAfter2 txtMpv1 with
     | some l =>
       (onMessage sfOracle txtMpv1 sAfter2).lines
         = sortById ((sAfter2.lines.filter (fun e => e.id ≠ l.id)) ++ [l]) ∧
       (onMessage sfOracle txtMpv1 sAfter2).lines.Pairwise (fun a b => a.id < b.id) ∧
       (∀ e, e ∈ (onMessage sfOracle txtMpv1 sAfter2).lines ↔
         e = l ∨ (e ∈ sAfter2.lines ∧ e.id ≠ l.id))
     | none => (onMessage sfOracle txtMpv1 sAfter2).lines = sAfter2.lines) ∧
    (onMessage sfOracle txtMpv1 sAfter2).lines.map EngineLine.id = [1, 2] :=
  ⟨by decide, c4_info_lines_keyed_sorted sfOracle sAfter2 txtMpv1 (by decide), by decide⟩


/-! ## Tree well-formedness: the parse invariant and its consequences (C5, C7) -/

lemma chainInv_congr {O : Oracle} {s0 : String} {n m : PlyNode} (h : ChainInv O s0 n)
    (hid : m.id = n.id) (hsc : m.sanClean = n.sanClean) (hfb : m.fenBefore = n.fenBefore)
    (hfa : m.fenAfter = n.fenAfter) (hp : m.parent = n.parent) : ChainInv O s0 m := by
  cases h with
  | base _ hp' hfb' hmv =>
    exact ChainInv.base m (hp.trans hp') (hfb.trans hfb') (by rw [hsc, hfa]; exact hmv)
  | step _ q hpq hq hfb' hmv hlt =>
    exact ChainInv.step m q (hp.trans hpq) hq (hfb.trans hfb') (by rw [hsc, hfa]; exact hmv)
      (by rw [hid]; exact hlt)

lemma collectPath_parent_none {n : PlyNode} (hp : n.parent = none) (seen : List Nat) :
    collectPath n seen = if seen.contains n.id then [] else [n] := by
  cases n with
  | mk i s sc fb fa mn iw cb ca ng p vs il =>
    simp only [PlyNode.parent_mk] at hp
    subst hp
    simp only [collectPath, PlyNode.id_mk]

lemma collectPath_parent_some {n q : PlyNode} (hp : n.parent = some q) (seen : List Nat) :
    collectPath n seen = if seen.contains n.id then []
      else n :: collectPath q (n.id :: seen) := by
  cases n with
  | mk i s sc fb fa mn iw cb ca ng p vs il =>
    simp only [PlyNode.parent_mk] at hp
    subst hp
    simp only [collectPath, PlyNode.id_mk]

lemma contains_eq_false_of_lt {seen : List Nat} {i : Nat} (h : ∀ j ∈ seen, i < j) :
    seen.contains i = false := by
  have hm : i ∉ seen := fun hmem => absurd (h i hmem) (lt_irrefl i)
  simpa using hm

lemma replayPath_append (O : Oracle) (l1 l2 : List PlyNode) (fens : List String)
    (cur : String) :
    replayPath O (l1 ++ l2) fens cur =
      replayPath O l2 (replayPath O l1 fens cur).1 (replayPath O l1 fens cur).2 := by
  induction l1 generalizing fens cur with
  | nil => simp [replayPath]
  | cons p rest ih =>
    simp only [List.cons_append, replayPath]
    cases O.move cur p.sanClean with
    | none => exact ih fens cur
    | some f => exact ih (fens ++ [f]) f

lemma chain_replay {O : Oracle} {s0 : String} :
    ∀ {n : PlyNode}, ChainInv O s0 n →
    ∀ (seen : List Nat), (∀ j ∈ seen, n.id < j) → ∀ (fens : List String),
    ∃ pf : List String,
      replayPath O ((collectPath n seen).reverse) fens s0 = (fens ++ pf, n.fenAfter) ∧
      pf ≠ [] ∧ pf.getLast? = some n.fenAfter ∧
      pf.length = (collectPath n seen).length := by
  intro n h
  induction h with
  | base n hp hfb hmv =>
    intro seen hseen fens
    have hc : seen.contains n.id = false := contains_eq_false_of_lt hseen
    rw [collectPath_parent_none hp, hc]
    simp only [Bool.false_eq_true, if_false]
    refine ⟨[n.fenAfter], ?_, by simp, by simp, by simp⟩
    simp [replayPath, hmv]
  | step n q hpq hq hfb hmv hlt ih =>
    intro seen hseen fens
    have hc : seen.contains n.id = false := contains_eq_false_of_lt hseen
    rw [collectPath_parent_some hpq, hc]
    simp only [Bool.false_eq_true, if_false]
    have hseen' : ∀ j ∈ n.id :: seen, q.id < j := by
      intro j hj
      rcases List.mem_cons.mp hj with rfl | hj'
      · exact hlt
      · exact lt_trans hlt (hseen j hj')
    obtain ⟨pf, hrep, hne, hlast, hlen⟩ := ih (n.id :: seen) hseen' fens
    refine ⟨pf ++ [n.fenAfter], ?_, by simp, by simp, by simp [hlen]⟩
    rw [List.reverse_cons, replayPath_append, hrep]
    simp [replayPath, hmv, List.append_assoc]

lemma lastFenOf_cons (cur : String) (m : PlyNode) (rest : List PlyNode) :
    lastFenOf cur (m :: rest) = lastFenOf m.fenAfter rest := by
  cases rest with
  | nil => simp [lastFenOf]
  | cons x xs =>
    simp only [lastFenOf, List.getLast?_cons_cons]
    rcases hy : (x :: xs).getLast? with _ | y
    · simp at hy
    · simp [hy]

lemma lastFenOf_append (cur : String) (ns : List PlyNode) (n : PlyNode) :
    lastFenOf cur (ns ++ [n]) = n.fenAfter := by
  induction ns generalizing cur with
  | nil => simp [lastFenOf]
  | cons m rest ih => rw [List.cons_append, lastFenOf_cons]; exact ih m.fenAfter

lemma nodesOK_mem {O : Oracle} {G : String → Prop} {s0 : String} :
    ∀ {ns : List PlyNode} {cur : String} {b : Nat}, NodesOK O G s0 cur b ns →
    ∀ n ∈ ns, O.move n.fenBefore n.sanClean = some n.fenAfter ∧
      G n.fenBefore ∧ G n.fenAfter ∧ ChainInv O s0 n ∧ b < n.id := by
  intro ns
  induction ns with
  | nil => intro cur b _ n hn; cases hn
  | cons m rest ih =>
    intro cur b hok n hn
    obtain ⟨hfb, hmv, hGb, hGa, hch, hb, hrest⟩ := hok
    rcases List.mem_cons.mp hn with rfl | hn'
    · exact ⟨by rw [hfb]; exact hmv, hGb, hGa, hch, hb⟩
    · obtain ⟨a1, a2, a3, a4, a5⟩ := ih hrest n hn'
      exact ⟨a1, a2, a3, a4, lt_trans hb a5⟩

lemma nodesOK_getLast {O : Oracle} {G : String → Prop} {s0 : String} :
    ∀ {ns : List PlyNode} {cur : String} {b : Nat} {n : PlyNode},
    NodesOK O G s0 cur b ns → ns.getLast? = some n →
    n.fenAfter = lastFenOf cur ns ∧ ChainInv O s0 n ∧ b < n.id := by
  intro ns
  induction ns with
  | nil => intro cur b n _ hl; cases hl
  | cons m rest ih =>
    intro cur b n hok hl
    obtain ⟨hfb, hmv, hGb, hGa, hch, hb, hrest⟩ := hok
    cases rest with
    | nil =>
      simp only [List.getLast?_singleton, Option.some.injEq] at hl
      subst hl
      exact ⟨by simp [lastFenOf], hch, hb⟩
    | cons x xs =>
      rw [List.getLast?_cons_cons] at hl
      obtain ⟨a1, a2, a3⟩ := ih hrest hl
      exact ⟨by rw [lastFenOf_cons]; exact a1, a2, lt_trans hb a3⟩

lemma nodesOK_append {O : Oracle} {G : String → Prop} {s0 : String} :
    ∀ {ns : List PlyNode} {cur : String} {b : Nat} {n : PlyNode},
    NodesOK O G s0 cur b ns →
    n.fenBefore = lastFenOf cur ns →
    O.move (lastFenOf cur ns) n.sanClean = some n.fenAfter →
    G n.fenBefore → G n.fenAfter → ChainInv O s0 n →
    (∀ m ∈ ns, m.id < n.id) → b < n.id →
    NodesOK O G s0 cur b (ns ++ [n]) := by
  intro ns
  induction ns with
  | nil =>
    intro cur b n _ hfb hmv hGb hGa hch _ hb
    simp only [lastFenOf] at hfb hmv
    exact ⟨hfb, hmv, hGb, hGa, hch, hb, trivial⟩
  | cons m rest ih =>
    intro cur b n hok hfb hmv hGb hGa hch hbd hb
    obtain ⟨h1, h2, h3, h4, h5, h6, h7⟩ := hok
    rw [lastFenOf_cons] at hfb hmv
    exact ⟨h1, h2, h3, h4, h5, h6,
      ih h7 hfb hmv hGb hGa hch (fun x hx => hbd x (by simp [hx])) (hbd m (by simp))⟩

lemma mem_of_mem_mapLast {f : PlyNode → PlyNode} :
    ∀ {ns : List PlyNode} {a : PlyNode}, a ∈ mapLast f ns →
      a ∈ ns ∨ ∃ m, m ∈ ns ∧ a = f m := by
  intro ns
  induction ns with
  | nil => intro a ha; cases ha
  | cons m rest ih =>
    intro a ha
    cases rest with
    | nil =>
      simp only [mapLast, List.mem_singleton] at ha
      exact Or.inr ⟨m, by simp, ha⟩
    | cons x xs =>
      rcases List.mem_cons.mp ha with rfl | ha'
      · exact Or.inl (by simp)
      · rcases ih ha' with h | ⟨w, hw, he⟩
        · exact Or.inl (by simp [h])
        · exact Or.inr ⟨w, by simp [hw], he⟩

/-- Projection-preserving node edits (comment, NAG, variation attachment,
index fix-up) preserve the chain-relevant fields. -/
def CorePreserving (f : PlyNode → PlyNode) : Prop :=
  ∀ m, (f m).id = m.id ∧ (f m).sanClean = m.sanClean ∧ (f m).fenBefore = m.fenBefore ∧
    (f m).fenAfter = m.fenAfter ∧ (f m).parent = m.parent

lemma lastFenOf_mapLast {f : PlyNode → PlyNode} (hf : CorePreserving f) :
    ∀ (ns : List PlyNode) (cur : String), lastFenOf cur (mapLast f ns) = lastFenOf cur ns := by
  intro ns
  induction ns with
  | nil => intro cur; rfl
  | cons m rest ih =>
    intro cur
    cases rest with
    | nil => simp [mapLast, lastFenOf, (hf m).2.2.2.1]
    | cons x xs =>
      rw [show mapLast f (m :: x :: xs) = m :: mapLast f (x :: xs) from rfl,
        lastFenOf_cons, lastFenOf_cons]
      exact ih m.fenAfter

lemma nodesOK_mapLast {O : Oracle} {G : String → Prop} {s0 : String}
    {f : PlyNode → PlyNode} (hf : CorePreserving f) :
    ∀ {ns : List PlyNode} {cur : String} {b : Nat}, NodesOK O G s0 cur b ns →
    NodesOK O G s0 cur b (mapLast f ns) := by
  intro ns
  induction ns with
  | nil => intro cur b h; exact h
  | cons m rest ih =>
    intro cur b hok
    obtain ⟨h1, h2, h3, h4, h5, h6, h7⟩ := hok
    obtain ⟨e1, e2, e3, e4, e5⟩ := hf m
    cases rest with
    | nil =>
      refine ⟨e3.trans h1, ?_, e3 ▸ h3, e4 ▸ h4, chainInv_congr h5 e1 e2 e3 e4 e5,
        e1 ▸ h6, trivial⟩
      rw [e2, e4]; exact h2
    | cons x xs =>
      exact ⟨h1, h2, h3, h4, h5, h6, ih h7⟩

lemma corePreserving_addCommentAfter (v : String) : CorePreserving (addCommentAfter v) := by
  intro m; refine ⟨?_, ?_, ?_, ?_, ?_⟩ <;> simp

lemma corePreserving_addNag (v : String) : CorePreserving (addNag v) := by
  intro m; refine ⟨?_, ?_, ?_, ?_, ?_⟩ <;> simp

lemma corePreserving_addVariation (V : Line) : CorePreserving (addVariation V) := by
  intro m; refine ⟨?_, ?_, ?_, ?_, ?_⟩ <;> simp

lemma corePreserving_setIndexInLine (j : Option Nat) : CorePreserving (setIndexInLine j) := by
  intro m; refine ⟨?_, ?_, ?_, ?_, ?_⟩ <;> simp

lemma idBound_mapLast {f : PlyNode → PlyNode} (hf : CorePreserving f) {ns : List PlyNode}
    {k : Nat} (h : ∀ m ∈ ns, m.id < k) : ∀ m ∈ mapLast f ns, m.id < k := by
  intro a ha
  rcases mem_of_mem_mapLast ha with ha' | ⟨w, hw, rfl⟩
  · exact h a ha'
  · rw [(hf w).1]; exact h w hw

lemma mem_of_mem_fixupGo :
    ∀ {ns : List PlyNode} {i : Nat} {a : PlyNode}, a ∈ fixupGo i ns →
      ∃ m j, m ∈ ns ∧ a = setIndexInLine (some j) m := by
  intro ns
  induction ns with
  | nil => intro i a ha; cases ha
  | cons m rest ih =>
    intro i a ha
    rcases List.mem_cons.mp ha with rfl | ha'
    · exact ⟨m, i, by simp, rfl⟩
    · obtain ⟨w, j, hw, he⟩ := ih ha'
      exact ⟨w, j, by simp [hw], he⟩

lemma nodesOK_fixupGo {O : Oracle} {G : String → Prop} {s0 : String} :
    ∀ {ns : List PlyNode} {cur : String} {b i : Nat}, NodesOK O G s0 cur b ns →
    NodesOK O G s0 cur b (fixupGo i ns) := by
  intro ns
  induction ns with
  | nil => intro cur b i h; exact h
  | cons m rest ih =>
    intro cur b i hok
    obtain ⟨h1, h2, h3, h4, h5, h6, h7⟩ := hok
    refine ⟨by simp [h1], by simp; exact h2, by simp [h3], by simp [h4],
      chainInv_congr h5 (by simp) (by simp) (by simp) (by simp) (by simp),
      by simp [h6], by simp; exact ih h7⟩

lemma nodesIdx_fixupGo : ∀ (ns : List PlyNode) (i : Nat), NodesIdx i (fixupGo i ns) := by
  intro ns
  induction ns with
  | nil => intro i; trivial
  | cons m rest ih => intro i; exact ⟨by simp, ih (i + 1)⟩

lemma idBound_fixupGo {ns : List PlyNode} {k i : Nat} (h : ∀ m ∈ ns, m.id < k) :
    ∀ m ∈ fixupGo i ns, m.id < k := by
  intro a ha
  obtain ⟨w, j, hw, rfl⟩ := mem_of_mem_fixupGo ha
  simpa using h w hw

lemma variationsWF_fixupGo {O : Oracle} {G : String → Prop} {ns : List PlyNode} {i : Nat}
    (h : ∀ n ∈ ns, ∀ V ∈ n.variations, TreeWF O G V) :
    ∀ n ∈ fixupGo i ns, ∀ V ∈ n.variations, TreeWF O G V := by
  intro a ha
  obtain ⟨w, j, hw, rfl⟩ := mem_of_mem_fixupGo ha
  simpa using h w hw

lemma variationsWF_mapLast_core {O : Oracle} {G : String → Prop}
    {f : PlyNode → PlyNode} (hfv : ∀ m, (f m).variations = m.variations)
    {ns : List PlyNode} (h : ∀ n ∈ ns, ∀ V ∈ n.variations, TreeWF O G V) :
    ∀ n ∈ mapLast f ns, ∀ V ∈ n.variations, TreeWF O G V := by
  intro a ha
  rcases mem_of_mem_mapLast ha with ha' | ⟨w, hw, rfl⟩
  · exact h a ha'
  · rw [hfv w]; exact h w hw

lemma variationsWF_mapLast_addVariation {O : Oracle} {G : String → Prop} {V : Line}
    (hV : TreeWF O G V) {ns : List PlyNode}
    (h : ∀ n ∈ ns, ∀ V' ∈ n.variations, TreeWF O G V') :
    ∀ n ∈ mapLast (addVariation V) ns, ∀ V' ∈ n.variations, TreeWF O G V' := by
  intro a ha
  rcases mem_of_mem_mapLast ha with ha' | ⟨w, hw, rfl⟩
  · exact h a ha'
  · intro V' hV'
    rw [variations_addVariation] at hV'
    rcases List.mem_append.mp hV' with h' | h'
    · exact h w hw V' h'
    · rcases List.mem_singleton.mp h' with rfl
      exact hV

lemma good_lastFenOf {O : Oracle} {G : String → Prop} {s0 : String}
    {ns : List PlyNode} {cur : String} {b : Nat}
    (hok : NodesOK O G s0 cur b ns) (hcur : G cur) : G (lastFenOf cur ns) := by
  rcases hl : ns.getLast? with _ | n
  · simp only [lastFenOf, hl]; exact hcur
  · have hm : n ∈ ns := List.mem_of_mem_getLast? hl
    obtain ⟨_, _, hGa, _, _⟩ := nodesOK_mem hok n hm
    obtain ⟨he, _, _⟩ := nodesOK_getLast hok hl
    rw [← he]; exact hGa

lemma good_anchorFor {O : Oracle} {G : String → Prop} {s0 : String}
    {s : String} {nodes : List PlyNode} {rest : List Tok} {b : Nat} {cur : String}
    (hok : NodesOK O G s0 cur b nodes) (hGs : G s) :
    G (anchorFor s nodes rest) := by
  unfold anchorFor
  rcases hl : nodes.getLast? with _ | n
  · rcases firstSubstantive rest with _ | t <;> simp [hl, hGs]
  · have hm : n ∈ nodes := List.mem_of_mem_getLast? hl
    obtain ⟨_, hGb, hGa, _, _⟩ := nodesOK_mem hok n hm
    rcases firstSubstantive rest with _ | t
    · simpa [hl] using hGa
    · cases t with
      | MOVE_NUM v =>
        simp only [hl]
        by_cases hw : wantsBlackTest v
        all_goals simp only [hw, if_true, if_false, Bool.false_eq_true]
        all_goals split
        all_goals first | exact hGb | exact hGa
      | COMMENT v => simpa [hl] using hGa
      | NAG v => simpa [hl] using hGa
      | RAV_START => simpa [hl] using hGa
      | RAV_END => simpa [hl] using hGa
      | RESULT v => simpa [hl] using hGa
      | SAN v => simpa [hl] using hGa

lemma parseLoop_wf {O : Oracle} {Good : String → Prop}
    (hmk : ∀ x, Good x → Good (mkFenStr O x))
    (hmv : ∀ f m g, Good f → O.move f m = some g → Good g) :
    ∀ (fuel : Nat) (toks : List Tok) (s cf : String) (nodes : List PlyNode)
      (preVars : List Line) (pending : List String) (lwm : Bool) (st : PState),
      Good s →
      cf = lastFenOf (mkFenStr O s) nodes →
      NodesOK O Good (mkFenStr O s) (mkFenStr O s) 0 nodes →
      (∀ n ∈ nodes, n.id < st.nid) →
      0 < st.nid →
      (∀ V ∈ preVars, TreeWF O Good V) →
      (∀ n ∈ nodes, ∀ V ∈ n.variations, TreeWF O Good V) →
      NodesOK O Good (mkFenStr O s) (mkFenStr O s) 0
          (parseLoop O fuel toks s cf nodes preVars pending lwm st).nodes ∧
        (∀ n ∈ (parseLoop O fuel toks s cf nodes preVars pending lwm st).nodes,
          n.id < (parseLoop O fuel toks s cf nodes preVars pending lwm st).st.nid) ∧
        (∀ V ∈ (parseLoop O fuel toks s cf nodes preVars pending lwm st).preVars,
          TreeWF O Good V) ∧
        (∀ n ∈ (parseLoop O fuel toks s cf nodes preVars pending lwm st).nodes,
          ∀ V ∈ n.variations, TreeWF O Good V) ∧
        st.nid ≤ (parseLoop O fuel toks s cf nodes preVars pending lwm st).st.nid := by
  intro fuel
  induction fuel with
  | zero =>
    intro toks s cf nodes preVars pending lwm st hGs hcf hok hid hpos hpre hvar
    simp only [parseLoop]
    exact ⟨hok, hid, hpre, hvar, le_refl _⟩
  | succ f ih =>
    intro toks s cf nodes preVars pending lwm st hGs hcf hok hid hpos hpre hvar
    cases toks with
    | nil =>
      simp only [parseLoop]
      exact ⟨hok, hid, hpre, hvar, le_refl _⟩
    | cons tok rest =>
      cases tok with
      | RAV_END =>
        simp only [parseLoop]
        exact ⟨hok, hid, hpre, hvar, le_refl _⟩
      | RESULT v =>
        simp only [parseLoop]
        exact ⟨hok, hid, hpre, hvar, le_refl _⟩
      | MOVE_NUM v =>
        simp only [parseLoop]
        exact ih rest s cf nodes preVars pending false st hGs hcf hok hid hpos hpre hvar
      | COMMENT v =>
        simp only [parseLoop]
        by_cases hc : lwm ∧ ¬ nodes.isEmpty
        · rw [if_pos hc]
          exact ih rest s cf (mapLast (addCommentAfter v) nodes) preVars pending lwm st
            hGs
            (by rw [hcf, lastFenOf_mapLast (corePreserving_addCommentAfter v)])
            (nodesOK_mapLast (corePreserving_addCommentAfter v) hok)
            (idBound_mapLast (corePreserving_addCommentAfter v) hid)
            hpos hpre
            (variationsWF_mapLast_core (fun m => variations_addCommentAfter) hvar)
        · rw [if_neg hc]
          exact ih rest s cf nodes preVars (pending ++ [v]) lwm st hGs hcf hok hid hpos
            hpre hvar
      | NAG v =>
        simp only [parseLoop]
        by_cases hc : ¬ nodes.isEmpty
        · rw [if_pos hc]
          exact ih rest s cf (mapLast (addNag v) nodes) preVars pending lwm st
            hGs
            (by rw [hcf, lastFenOf_mapLast (corePreserving_addNag v)])
            (nodesOK_mapLast (corePreserving_addNag v) hok)
            (idBound_mapLast (corePreserving_addNag v) hid)
            hpos hpre
            (variationsWF_mapLast_core (fun m => variations_addNag) hvar)
        · rw [if_neg hc]
          exact ih rest s cf nodes preVars pending lwm st hGs hcf hok hid hpos hpre hvar
      | SAN v =>
        simp only [parseLoop]
        rcases hm : O.move cf (sanitizeSANForMove v) with _ | fa
        · exact ih rest s cf nodes preVars pending lwm st hGs hcf hok hid hpos hpre hvar
        · have hGcf : Good cf := by
            rw [hcf]
            exact good_lastFenOf hok (hmk s hGs)
          have hGfa : Good fa := hmv cf (sanitizeSANForMove v) fa hGcf hm
          have hchain : ChainInv O (mkFenStr O s)
              (PlyNode.mk st.nid v (sanitizeSANForMove v) cf fa
                (parseIntOr1 (fenField cf 5)) (decide (O.turn cf = 'w'))
                pending [] [] nodes.getLast? [] none) := by
            rcases hl : nodes.getLast? with _ | q
            · have hnil : nodes = [] := List.getLast?_eq_none_iff.mp hl
              refine ChainInv.base _ (by simp [hl]) ?_ ?_
              · subst hnil
                simpa [lastFenOf] using hcf
              · have : cf = mkFenStr O s := by
                  subst hnil
                  simpa [lastFenOf] using hcf
                simpa [this] using hm
            · obtain ⟨he, hch, _⟩ := nodesOK_getLast hok hl
              refine ChainInv.step _ q (by simp [hl]) hch ?_ ?_ ?_
              · simp only [PlyNode.fenBefore_mk]
                rw [hcf, ← he]
              · simp only [PlyNode.sanClean_mk, PlyNode.fenAfter_mk]
                rw [he, ← hcf]
                exact hm
              · simp only [PlyNode.id_mk]
                exact hid q (List.mem_of_mem_getLast? hl)
          have hok' : NodesOK O Good (mkFenStr O s) (mkFenStr O s) 0
              (nodes ++ [PlyNode.mk st.nid v (sanitizeSANForMove v) cf fa
                (parseIntOr1 (fenField cf 5)) (decide (O.turn cf = 'w'))
                pending [] [] nodes.getLast? [] none]) := by
            refine nodesOK_append hok (by simpa using hcf) ?_ (by simpa using hGcf)
              (by simpa using hGfa) hchain ?_ ?_
            · rw [← hcf]
              simpa using hm
            · intro m hmem
              simpa using hid m hmem
            · simpa using hpos
          have hcf' : fa = lastFenOf (mkFenStr O s)
              (nodes ++ [PlyNode.mk st.nid v (sanitizeSANForMove v) cf fa
                (parseIntOr1 (fenField cf 5)) (decide (O.turn cf = 'w'))
                pending [] [] nodes.getLast? [] none]) := by
            rw [lastFenOf_append]
            simp
          have hid' : ∀ n ∈ (nodes ++ [PlyNode.mk st.nid v (sanitizeSANForMove v) cf fa
                (parseIntOr1 (fenField cf 5)) (decide (O.turn cf = 'w'))
                pending [] [] nodes.getLast? [] none]),
              n.id < (PState.mk (st.nid + 1) st.lid).nid := by
            intro n hn
            rcases List.mem_append.mp hn with h' | h'
            · exact lt_trans (hid n h') (by simp)
            · rcases List.mem_singleton.mp h' with rfl
              simp
          have hvar' : ∀ n ∈ (nodes ++ [PlyNode.mk st.nid v (sanitizeSANForMove v) cf fa
                (parseIntOr1 (fenField cf 5)) (decide (O.turn cf = 'w'))
                pending [] [] nodes.getLast? [] none]),
              ∀ V ∈ n.variations, TreeWF O Good V := by
            intro n hn
            rcases List.mem_append.mp hn with h' | h'
            · exact hvar n h'
            · rcases List.mem_singleton.mp h' with rfl
              intro V hV
              simp at hV
          obtain ⟨a1, a2, a3, a4, a5⟩ := ih rest s fa _ preVars [] true ⟨st.nid + 1, st.lid⟩
            hGs hcf' hok' hid' (by simp) hpre hvar'
          exact ⟨a1, a2, a3, a4, le_trans (by simp) a5⟩
      | RAV_START =>
        simp only [parseLoop]
        have hGanchor : Good (anchorFor s nodes rest) := good_anchorFor hok hGs
        obtain ⟨b1, b2, b3, b4, b5⟩ := ih rest (anchorFor s nodes rest)
          (mkFenStr O (anchorFor s nodes rest)) [] [] [] false ⟨st.nid, st.lid + 1⟩
          hGanchor (by simp [lastFenOf]) trivial (by intro n hn; cases hn)
          (by simpa using hpos)
          (by intro V hV; cases hV) (by intro n hn; cases hn)
        have hTW : TreeWF O Good (Line.mk st.lid (anchorFor s nodes rest)
            (fixupNodes (parseLoop O f rest (anchorFor s nodes rest)
              (mkFenStr O (anchorFor s nodes rest)) [] [] [] false
              ⟨st.nid, st.lid + 1⟩).nodes)
            (parseLoop O f rest (anchorFor s nodes rest)
              (mkFenStr O (anchorFor s nodes rest)) [] [] [] false
              ⟨st.nid, st.lid + 1⟩).preVars) :=
          TreeWF.mk _ _ _ _ hGanchor (nodesOK_fixupGo b1) (nodesIdx_fixupGo _ _)
            b3 (variationsWF_fixupGo b4)
        by_cases hc : nodes.isEmpty
        · rw [if_pos hc]
          obtain ⟨c1, c2, c3, c4, c5⟩ := ih
            (parseLoop O f rest (anchorFor s nodes rest)
              (mkFenStr O (anchorFor s nodes rest)) [] [] [] false
              ⟨st.nid, st.lid + 1⟩).rest s cf nodes
            (preVars ++ [Line.mk st.lid (anchorFor s nodes rest)
              (fixupNodes (parseLoop O f rest (anchorFor s nodes rest)
                (mkFenStr O (anchorFor s nodes rest)) [] [] [] false
                ⟨st.nid, st.lid + 1⟩).nodes)
              (parseLoop O f rest (anchorFor s nodes rest)
                (mkFenStr O (anchorFor s nodes rest)) [] [] [] false
                ⟨st.nid, st.lid + 1⟩).preVars])
            pending false
            (parseLoop O f rest (anchorFor s nodes rest)
              (mkFenStr O (anchorFor s nodes rest)) [] [] [] false
              ⟨st.nid, st.lid + 1⟩).st
            hGs hcf hok
            (fun n hn => lt_of_lt_of_le (hid n hn) (by simpa using b5))
            (lt_of_lt_of_le hpos (by simpa using b5))
            (by
              intro V hV
              rcases List.mem_append.mp hV with h' | h'
              · exact hpre V h'
              · rcases List.mem_singleton.mp h' with rfl
                exact hTW)
            hvar
          exact ⟨c1, c2, c3, c4, le_trans (by simpa using b5) c5⟩
        · rw [if_neg hc]
          obtain ⟨c1, c2, c3, c4, c5⟩ := ih
            (parseLoop O f rest (anchorFor s nodes rest)
              (mkFenStr O (anchorFor s nodes rest)) [] [] [] false
              ⟨st.nid, st.lid + 1⟩).rest s cf
            (mapLast (addVariation (Line.mk st.lid (anchorFor s nodes rest)
              (fixupNodes (parseLoop O f rest (anchorFor s nodes rest)
                (mkFenStr O (anchorFor s nodes rest)) [] [] [] false
                ⟨st.nid, st.lid + 1⟩).nodes)
              (parseLoop O f rest (anchorFor s nodes rest)
                (mkFenStr O (anchorFor s nodes rest)) [] [] [] false
                ⟨st.nid, st.lid + 1⟩).preVars)) nodes)
            preVars pending false
            (parseLoop O f rest (anchorFor s nodes rest)
              (mkFenStr O (anchorFor s nodes rest)) [] [] [] false
              ⟨st.nid, st.lid + 1⟩).st
            hGs
            (by rw [hcf, lastFenOf_mapLast (corePreserving_addVariation _)])
            (nodesOK_mapLast (corePreserving_addVariation _) hok)
            (idBound_mapLast (corePreserving_addVariation _)
              (fun n hn => lt_of_lt_of_le (hid n hn) (by simpa using b5)))
            (lt_of_lt_of_le hpos (by simpa using b5))
            hpre
            (variationsWF_mapLast_addVariation hTW hvar)
          exact ⟨c1, c2, c3, c4, le_trans (by simpa using b5) c5⟩

lemma parseLineF_wf {O : Oracle} {Good : String → Prop}
    (hmk : ∀ x, Good x → Good (mkFenStr O x))
    (hmv : ∀ f m g, Good f → O.move f m = some g → Good g)
    (fuel : Nat) (toks : List Tok) (s : String) (st : PState)
    (hGs : Good s) (hpos : 0 < st.nid) :
    TreeWF O Good (parseLineF O fuel toks s st).1 := by
  cases fuel with
  | zero =>
    refine TreeWF.mk _ _ _ _ hGs trivial trivial ?_ ?_
    · intro V hV; cases hV
    · intro n hn; cases hn
  | succ f =>
    obtain ⟨b1, b2, b3, b4, b5⟩ := parseLoop_wf hmk hmv f toks s (mkFenStr O s) [] [] []
      false ⟨st.nid, st.lid + 1⟩ hGs (by simp [lastFenOf]) trivial
      (by intro n hn; cases hn) (by simpa using hpos) (by intro V hV; cases hV)
      (by intro n hn; cases hn)
    exact TreeWF.mk _ _ _ _ hGs (nodesOK_fixupGo b1) (nodesIdx_fixupGo _ _) b3
      (variationsWF_fixupGo b4)

lemma treeWF_reach {O : Oracle} {Good : String → Prop} {root L : Line}
    (h : TreeWF O Good root) (hr : Reach root L) : TreeWF O Good L := by
  induction hr with
  | refl => exact h
  | pre L0 V _ hV ih =>
    cases ih with
    | mk lid s nodes preVars hGs hok hidx hpre hvar => exact hpre V hV
  | var L0 n V _ hn hV ih =>
    cases ih with
    | mk lid s nodes preVars hGs hok hidx hpre hvar => exact hvar n hn V hV

lemma treeWF_apply_eq {O : Oracle} {Good : String → Prop} {L : Line} {n : PlyNode}
    (h : TreeWF O Good L) (hn : n ∈ L.nodes) :
    O.move n.fenBefore n.sanClean = some n.fenAfter := by
  cases h with
  | mk lid s nodes preVars hGs hok hidx hpre hvar =>
    exact (nodesOK_mem hok n hn).1

/-- C7.  Every Ply of every Line reachable in a parsed tree satisfies the
construction invariant: its stored position-after is exactly the oracle's
result of applying its sanitized move descriptor to its stored
position-before (a Ply for which the application fails is never
constructed). -/
theorem c7_ply_invariant (O : Oracle) (txt : String) (sf : Option String)
    (L : Line) (n : PlyNode)
    (hreach : Reach (parseMovetextToTree O txt sf).1 L) (hn : n ∈ L.nodes) :
    O.move n.fenBefore n.sanClean = some n.fenAfter := by
  have hW : TreeWF O (fun _ => True) (parseMovetextToTree O txt sf).1 :=
    parseLineF_wf (fun _ _ => trivial) (fun _ _ _ _ _ => trivial) _ _ _ _ trivial
      (by simp)
  exact treeWF_apply_eq (treeWF_reach hW hreach) hn

theorem c7_ply_invariant_witness :
    sfOracle.move (mainE4E5.nodes.headD default).fenBefore
        (mainE4E5.nodes.headD default).sanClean
      = some (mainE4E5.nodes.headD default).fenAfter :=
  c7_ply_invariant sfOracle "1. e4 e5" none mainE4E5 (mainE4E5.nodes.headD default)
    Reach.refl (by
      have h : mainE4E5.nodes = (mainE4E5.nodes.headD default) :: mainE4E5.nodes.tail :=
        rfl
      rw [h]
      exact List.mem_cons_self _ _)

lemma stable_mkFenStr {O : Oracle} {s : String} (h : Stable O s) : mkFenStr O s = s := by
  unfold Stable at h
  unfold mkFenStr
  rw [h]
  rfl

lemma stable_startFenActual {O : Oracle} (hOK : OracleOK O) (sf : Option String) :
    Stable O (startFenActual O sf) := by
  cases sf with
  | none => exact hOK.norm_init
  | some f =>
    by_cases hf : f = ""
    · simp only [startFenActual, hf, if_pos]
      exact hOK.norm_init
    · simp only [startFenActual, hf, if_neg, not_false_iff]
      unfold mkFenStr
      rcases hn : O.norm f with _ | g
      · simpa using hOK.norm_init
      · simpa using hOK.norm_norm f g hn

lemma stable_ne_empty {O : Oracle} {s : String} (hOK : OracleOK O) (h : Stable O s) :
    s ≠ "" := by
  intro e
  rw [e] at h
  unfold Stable at h
  rw [hOK.norm_empty] at h
  cases h

lemma nodesIdx_get : ∀ {ns : List PlyNode} {k i : Nat} (h : i < ns.length),
    NodesIdx k ns → (ns.get ⟨i, h⟩).indexInLine = some (k + i) := by
  intro ns
  induction ns with
  | nil => intro k i h _; cases h
  | cons m rest ih =>
    intro k i h hidx
    obtain ⟨h1, h2⟩ := hidx
    cases i with
    | zero => simpa using h1
    | succ j =>
      have h3 := ih (Nat.lt_of_succ_lt_succ h) h2
      rw [show k + (j + 1) = (k + 1) + j by omega]
      simpa using h3

lemma nodesOK_drop {O : Oracle} {G : String → Prop} {s0 : String} :
    ∀ {ns : List PlyNode} {cur : String} {b i : Nat} (h : i < ns.length),
    NodesOK O G s0 cur b ns →
    NodesOK O G s0 (ns.get ⟨i, h⟩).fenAfter (ns.get ⟨i, h⟩).id (ns.drop (i + 1)) := by
  intro ns
  induction ns with
  | nil => intro cur b i h _; cases h
  | cons m rest ih =>
    intro cur b i h hok
    obtain ⟨h1, h2, h3, h4, h5, h6, h7⟩ := hok
    cases i with
    | zero => simpa using h7
    | succ j => simpa using ih (Nat.lt_of_succ_lt_succ h) h7

lemma replayCont_spec {O : Oracle} {G : String → Prop} {s0 : String} :
    ∀ {ms : List PlyNode} {cur : String} {b : Nat} (fens : List String),
    NodesOK O G s0 cur b ms →
    replayCont O ms fens cur = fens ++ ms.map PlyNode.fenAfter := by
  intro ms
  induction ms with
  | nil => intro cur b fens _; simp [replayCont]
  | cons m rest ih =>
    intro cur b fens hok
    obtain ⟨h1, h2, _, _, _, _, h7⟩ := hok
    simp only [replayCont, h2]
    rw [ih (fens ++ [m.fenAfter]) h7]
    simp

lemma getLast?_drop_of_ne_nil {α : Type} {l : List α} {k : Nat} (h : l.drop k ≠ []) :
    (l.drop k).getLast? = l.getLast? := by
  conv_rhs => rw [← List.take_append_drop k l]
  rw [List.getLast?_append_of_ne_nil _ h]

lemma treeWF_resolve {O : Oracle} (hOK : OracleOK O) {L : Line} {p : PlyNode}
    (fb : String) (hW : TreeWF O (Stable O) L) (hp : p ∈ L.nodes) :
    ∃ fens lastNode, goToNodeFens O (some L) p fb = some fens ∧
      fens.get? (pathLen p) = some p.fenAfter ∧
      L.nodes.getLast? = some lastNode ∧ fens.getLast? = some lastNode.fenAfter := by
  cases hW with
  | mk lid s ns pv hGs hok hidx hpre hvar =>
    rw [stable_mkFenStr hGs] at hok
    simp only [Line.nodes_mk] at hp
    obtain ⟨⟨i, hi⟩, rfl⟩ := List.mem_iff_get.mp hp
    have hidxp : (ns.get ⟨i, hi⟩).indexInLine = some i := by
      simpa using nodesIdx_get hi hidx
    obtain ⟨hmvp, hGb, hGa, hch, _⟩ := nodesOK_mem hok _ (List.get_mem _ _ _)
    have hsne : s ≠ "" := stable_ne_empty hOK hGs
    obtain ⟨pf, hrep, hpfne, hpflast, hpflen⟩ :=
      chain_replay hch [] (by intro j hj; cases hj) [s]
    have hfens : goToNodeFens O (some (Line.mk lid s ns pv)) (ns.get ⟨i, hi⟩) fb
        = some ((s :: pf) ++ (ns.drop (i + 1)).map PlyNode.fenAfter) := by
      unfold goToNodeFens
      simp only [Line.startFen_mk, Line.nodes_mk, if_neg hsne]
      rw [show O.norm s = some s from hGs]
      simp only [startIdxOf, hidxp]
      rw [hrep]
      rw [if_neg (by omega : ¬ ((i : Nat) : Int) = -1)]
      have htn : (((i : Nat) : Int)).toNat = i := by omega
      rw [htn]
      rw [replayCont_spec _ (nodesOK_drop hi hok)]
      simp
    refine ⟨(s :: pf) ++ (ns.drop (i + 1)).map PlyNode.fenAfter, ?_⟩
    rcases hlast : ns.getLast? with _ | lastNode
    · rw [List.getLast?_eq_none_iff] at hlast
      subst hlast
      cases hi
    refine ⟨lastNode, hfens, ?_, by simpa using hlast, ?_⟩
    · have hlen1 : pathLen (ns.get ⟨i, hi⟩) = pf.length := by
        unfold pathLen
        exact hpflen.symm
      rw [hlen1]
      rw [List.get?_append (by simp)]
      have h2 : (s :: pf).get? pf.length = (s :: pf).getLast? := by
        rw [List.getLast?_eq_get?]
        simp
      rw [h2, List.getLast?_cons, hpflast]
      simp [hpfne]
    · rcases hd : ns.drop (i + 1) with _ | ⟨d, ds⟩
      · have hile : ns.length ≤ i + 1 := List.drop_eq_nil_iff.mp hd
        have hieq : i = ns.length - 1 := by omega
        have : ns.getLast? = some (ns.get ⟨i, hi⟩) := by
          rw [List.getLast?_eq_get?, ← hieq, List.get?_eq_get hi]
        rw [this] at hlast
        injection hlast with he
        subst he
        simp only [hd, List.map_nil, List.append_nil]
        rw [List.getLast?_cons, hpflast]
        simp [hpfne]
      · rw [List.getLast?_append_of_ne_nil _
          (by simp : List.map PlyNode.fenAfter (d :: ds) ≠ [])]
        rw [List.getLast?_map]
        have hgl : (d :: ds).getLast? = ns.getLast? := by
          rw [← hd]
          exact getLast?_drop_of_ne_nil (by rw [hd]; simp)
        rw [hgl, hlast]
        rfl

lemma sfOracleOK : OracleOK sfOracle := by
  refine ⟨by decide, ?_, ?_, by decide⟩
  · intro f g h
    by_cases hP : f = fenInit ∨ f = fenE4 ∨ f = fenE4E5 ∨ f = fenE4C5
    · simp only [sfOracle, if_pos hP] at h
      injection h with h'
      subst h'
      simp only [sfOracle, if_pos hP]
    · simp only [sfOracle, if_neg hP] at h
      cases h
  · intro f m g h
    simp only [sfOracle] at h ⊢
    split_ifs at h
    all_goals injection h with h'
    all_goals subst h'
    all_goals simp

/-- C5 (amended).  For every Ply `p` of every Line `L` of a parsed tree, the
resolver succeeds and its position sequence contains `p`'s stored
position-after exactly at the cursor index the source uses
(`path.length`, the number of plies from the root of `L` through `p`); the
LAST element of the sequence is instead the stored position-after of the last
Ply of `L` (the continuation suffix), so it equals `p`'s position-after
exactly when `p` is that last Ply. -/
theorem c5_resolve_cursor_position (O : Oracle) (txt : String) (sf : Option String)
    (L : Line) (p : PlyNode) (fb : String) (hOK : OracleOK O)
    (hreach : Reach (parseMovetextToTree O txt sf).1 L) (hp : p ∈ L.nodes) :
    ∃ fens lastNode, goToNodeFens O (some L) p fb = some fens ∧
      fens.get? (pathLen p) = some p.fenAfter ∧
      L.nodes.getLast? = some lastNode ∧ fens.getLast? = some lastNode.fenAfter := by
  have hW0 : TreeWF O (Stable O) (parseMovetextToTree O txt sf).1 :=
    parseLineF_wf
      (fun x hx => by rw [stable_mkFenStr hx]; exact hx)
      (fun f m g _ hmov => hOK.norm_move f m g hmov)
      (4 * (tokenizeMovetext txt).length + 4) (tokenizeMovetext txt)
      (startFenActual O sf) ⟨1, 1⟩ (stable_startFenActual hOK sf) (by simp)
  exact treeWF_resolve hOK fb (treeWF_reach hW0 hreach) hp

/-- C5 (counterexample).  For the tree of `1. e4 e5` and `p` = the `e4` ply,
the resolver's position sequence ends with the position after `e5` (the
continuation to the end of the line), NOT with `p`'s stored position-after. -/
theorem c5_counterexample :
    (goToNodeFens sfOracle (some mainE4E5) (mainE4E5.nodes.headD default) "fb").map
        (fun fs => fs.getLast?) = some (some fenE4E5) ∧
    (mainE4E5.nodes.headD default).fenAfter = fenE4 ∧
    ¬ ((goToNodeFens sfOracle (some mainE4E5) (mainE4E5.nodes.headD default) "fb").map
        (fun fs => fs.getLast?)
      = some (some ((mainE4E5.nodes.headD default).fenAfter))) := by
  refine ⟨?_, ?_, ?_⟩
  all_goals decide

theorem c5_resolve_cursor_position_witness :
    OracleOK sfOracle ∧
    (∃ fens lastNode,
      goToNodeFens sfOracle (some mainE4E5) (mainE4E5.nodes.headD default) "fb"
        = some fens ∧
      fens.get? (pathLen (mainE4E5.nodes.headD default))
        = some (mainE4E5.nodes.headD default).fenAfter ∧
      mainE4E5.nodes.getLast? = some lastNode ∧
      fens.getLast? = some lastNode.fenAfter) :=
  ⟨sfOracleOK,
   c5_resolve_cursor_position sfOracle "1. e4 e5" none mainE4E5
     (mainE4E5.nodes.headD default) "fb" sfOracleOK Reach.refl
     (by
       have h : mainE4E5.nodes = (mainE4E5.nodes.headD default) :: mainE4E5.nodes.tail :=
         rfl
       rw [h]
       exact List.mem_cons_self _ _)⟩

end PgnViewer
